import Mathlib

/-!
Verification of the `protodemo` descriptor decoder.

The Go source (`src/cmd/protodemo/main.go`) is shallowly embedded below:
byte buffers become `List Nat` (each element a byte value), machine
integers become `Nat`/`Int` with explicit `% 2 ^ w` where overflow can
occur, Go slice expressions that can fault at runtime are modelled by
`Option` (`none` is a runtime panic), and the scanning loops are modelled
with an explicit fuel parameter (`Res.diverge` is returned only when the
fuel runs out, which on a divergent input happens for every fuel value).
-/

set_option maxRecDepth 10000

namespace Proton

/-- A byte buffer; each entry is one byte (reduced `% 256` wherever the
Go code reads it as a `byte`). -/
abbrev Bytes := List Nat

/-- Go `encoding/binary.Uvarint`, inner loop. `i` is the byte index, `s`
the current shift, `x` the accumulator (a `uint64`, hence `% 2 ^ 64`).
Returns the decoded value and the count of bytes read (`0` when the buffer
ends before the varint does, negative on 64-bit overflow). -/
def uvarintAux : Bytes → Nat → Nat → Nat → Nat × Int
  | [], _, _, _ => (0, 0)
  | b :: rest, i, s, x =>
    if i = 10 then (0, -((i : Int) + 1))
    else if b % 256 < 128 then
      if i = 9 ∧ 1 < b % 256 then (0, -((i : Int) + 1))
      else ((x ||| (b % 256) <<< s) % 2 ^ 64, (i : Int) + 1)
    else uvarintAux rest (i + 1) (s + 7) ((x ||| ((b % 256) &&& 127) <<< s) % 2 ^ 64)

/-- Go `binary.Uvarint(buf)`. -/
def uvarint (data : Bytes) : Nat × Int := uvarintAux data 0 0 0

/-- Go conversion `int(v)` of a `uint64` to a 64-bit signed int. -/
def toInt64 (v : Nat) : Int :=
  if v % 2 ^ 64 < 2 ^ 63 then (v % 2 ^ 64 : Nat) else (v % 2 ^ 64 : Nat) - 2 ^ 64

/-- Go conversion `int32(d)` of a `uint64` to a 32-bit signed int. -/
def toInt32 (v : Nat) : Int :=
  if v % 2 ^ 32 < 2 ^ 31 then (v % 2 ^ 32 : Nat) else (v % 2 ^ 32 : Nat) - 2 ^ 32

/-- Little-endian read of `n` bytes from the front of a buffer
(Go `binary.LittleEndian.Uint32` / `Uint64`; the caller checks bounds). -/
def leUintN : Nat → Bytes → Nat
  | 0, _ => 0
  | _ + 1, [] => 0
  | n + 1, b :: rest => b % 256 + 256 * leUintN n rest

/-- The quadruple returned by Go `readNext`: scalar value `d`, byte slice
`b` (`none` is Go `nil`), `tag` (a `uint32`), and `next`, the
bytes-consumed / error code (Go `int`). -/
structure ReadRes where
  d : Nat
  b : Option Bytes
  tag : Nat
  next : Int
deriving Repr, DecidableEq

/-- Go `readNext(data)`. `none` models a Go runtime panic (a slice
expression whose bounds fall outside the buffer). All other paths mirror
the source line by line: the header varint is split into
`tag = uint32(v >> 3)` and `kind = v & 0x07`; `tag == 0` returns the kind
in the scalar slot with `next = pos`; otherwise the four wire-type
branches run with exactly the source's bounds checks. -/
def readNext (data : Bytes) : Option ReadRes :=
  let vp := uvarint data
  let v := vp.1
  let pos := vp.2
  let tag := (v >>> 3) % 2 ^ 32
  let kind := v &&& 7
  if tag = 0 then some ⟨kind, none, tag, pos⟩
  else
    let hdr := pos.toNat
    if kind = 0 then
      let vp2 := uvarint (data.drop hdr)
      if vp2.2 < 0 then some ⟨kind, none, tag, 0⟩
      else some ⟨vp2.1, none, tag, (hdr : Int) + vp2.2⟩
    else if kind = 5 then
      if hdr + 4 ≤ data.length then
        some ⟨leUintN 4 (data.drop hdr), none, tag, (hdr : Int) + 4⟩
      else none
    else if kind = 1 then
      if hdr + 8 ≤ data.length then
        some ⟨leUintN 8 (data.drop hdr), none, tag, (hdr : Int) + 8⟩
      else none
    else if kind = 2 then
      let vp2 := uvarint (data.drop hdr)
      if vp2.2 = 0 then some ⟨kind, none, tag, 0⟩
      else
        let start : Int := (hdr : Int) + vp2.2
        let nxt : Int := start + toInt64 vp2.1
        if 0 ≤ start ∧ start ≤ nxt ∧ nxt ≤ (data.length : Int) then
          some ⟨0, some ((data.drop start.toNat).take (nxt - start).toNat), tag, nxt⟩
        else none
    else some ⟨kind, none, tag, 0⟩

/-- Go `type Field struct`; `ftype` is the source's `Type` attribute
(a reserved word in Lean). `tag`, `label`, `ftype` are the narrowed
`uint32` / `uint8` values, `oneOfIndex` the `int32`. -/
structure Field where
  name : Bytes := []
  tag : Nat := 0
  label : Nat := 0
  ftype : Nat := 0
  oneOfIndex : Int := 0
deriving Repr, DecidableEq

/-- Go `type Message struct` (recursive through `Nested`). -/
inductive Message where
  | mk (name : Bytes) (field : List Field) (nested : List Message)
deriving Repr

def Message.name : Message → Bytes
  | .mk n _ _ => n

def Message.field : Message → List Field
  | .mk _ fs _ => fs

def Message.nested : Message → List Message
  | .mk _ _ ns => ns

/-- Go assignment `m.Name = x`. -/
def Message.setName : Message → Bytes → Message
  | .mk _ fs ns, n => .mk n fs ns

/-- Go assignment `m.Field = append(m.Field, f)`. -/
def Message.addField : Message → Field → Message
  | .mk n fs ns, f => .mk n (fs ++ [f]) ns

/-- Go assignment `m.Nested = append(m.Nested, nm)`. -/
def Message.addNested : Message → Message → Message
  | .mk n fs ns, m => .mk n fs (ns ++ [m])

/-- Go `type File struct`. -/
structure File where
  name : Bytes := []
  package : Bytes := []
  message : List Message := []
  format : Bytes := []
deriving Repr

/-- Outcome of a walker call. Go returns a partial entity together with an
optional `*badOffset`; `ok` is a nil error, `fail a off` is a non-nil
error (the entity the Go function also returns is kept in `a`). `panic`
models a Go runtime panic, `diverge` is returned only on fuel exhaustion
and stands for a non-terminating run when it holds for every fuel. -/
inductive Res (α : Type) where
  | ok (a : α)
  | fail (a : α) (off : Int)
  | panic
  | diverge
deriving Repr

/-- The tag-dispatch of Go `parseField`'s `switch t` body: how one decoded
triple `(d, b, t)` updates the field under construction. -/
def fieldStep (f : Field) (t d : Nat) (b : Option Bytes) : Field :=
  if t = 1 then { f with name := b.getD [] }
  else if t = 3 then { f with tag := d % 2 ^ 32 }
  else if t = 4 then { f with label := d % 256 }
  else if t = 5 then { f with ftype := d % 256 }
  else if t = 9 then { f with oneOfIndex := toInt32 d }
  else f

/-- Go `parseField`'s scan loop: cursor `i` (a Go `int`, so `Int` here;
`msg[i:]` with `i < 0` panics), `n == 0` aborts with offset `i`,
recognized tags update `f` via `fieldStep`, and the cursor advances by
`n`. -/
def parseFieldLoop (fuel : Nat) (msg : Bytes) (i : Int) (f : Field) : Res Field :=
  match fuel with
  | 0 => .diverge
  | fuel + 1 =>
    if i < (msg.length : Int) then
      if i < 0 then .panic
      else
        match readNext (msg.drop i.toNat) with
        | none => .panic
        | some r =>
          if r.next = 0 then .fail f i
          else parseFieldLoop fuel msg (i + r.next) (fieldStep f r.tag r.d r.b)
    else .ok f

/-- Go `parseMessage`'s scan loop. Tag 1 sets the name, tag 2 parses the
slice as a `Field` and appends it (translating a failure offset by `i`),
tag 4 recurses into a nested `Message`, anything else is skipped. -/
def parseMessageLoop (fuel : Nat) (msg : Bytes) (i : Int) (m : Message) : Res Message :=
  match fuel with
  | 0 => .diverge
  | fuel + 1 =>
    if i < (msg.length : Int) then
      if i < 0 then .panic
      else
        match readNext (msg.drop i.toNat) with
        | none => .panic
        | some r =>
          if r.next = 0 then .fail m i
          else if r.tag = 1 then
            parseMessageLoop fuel msg (i + r.next) (m.setName (r.b.getD []))
          else if r.tag = 2 then
            match parseFieldLoop fuel (r.b.getD []) 0 {} with
            | .ok f => parseMessageLoop fuel msg (i + r.next) (m.addField f)
            | .fail _ e => .fail m (i + e)
            | .panic => .panic
            | .diverge => .diverge
          else if r.tag = 4 then
            match parseMessageLoop fuel (r.b.getD []) 0 (.mk [] [] []) with
            | .ok nm => parseMessageLoop fuel msg (i + r.next) (m.addNested nm)
            | .fail _ e => .fail m (i + e)
            | .panic => .panic
            | .diverge => .diverge
          else parseMessageLoop fuel msg (i + r.next) m
    else .ok m

/-- Go `parseFile`'s scan loop: tag 1 name, tag 2 package, tag 4 nested
`Message` (appended on success, offset translated by `i` on failure),
tag 12 format, anything else skipped. -/
def parseFileLoop (fuel : Nat) (msg : Bytes) (i : Int) (f : File) : Res File :=
  match fuel with
  | 0 => .diverge
  | fuel + 1 =>
    if i < (msg.length : Int) then
      if i < 0 then .panic
      else
        match readNext (msg.drop i.toNat) with
        | none => .panic
        | some r =>
          if r.next = 0 then .fail f i
          else if r.tag = 1 then
            parseFileLoop fuel msg (i + r.next) { f with name := r.b.getD [] }
          else if r.tag = 2 then
            parseFileLoop fuel msg (i + r.next) { f with package := r.b.getD [] }
          else if r.tag = 4 then
            match parseMessageLoop fuel (r.b.getD []) 0 (.mk [] [] []) with
            | .ok m => parseFileLoop fuel msg (i + r.next) { f with message := f.message ++ [m] }
            | .fail _ e => .fail f (i + e)
            | .panic => .panic
            | .diverge => .diverge
          else if r.tag = 12 then
            parseFileLoop fuel msg (i + r.next) { f with format := r.b.getD [] }
          else parseFileLoop fuel msg (i + r.next) f
    else .ok f

/-- Go `parseDescriptor`'s scan loop: only tag 1 (a `File`, appended on
success; on failure the files decoded so far are returned with the
translated offset) is recognized, everything else is skipped. -/
def parseDescLoop (fuel : Nat) (msg : Bytes) (i : Int) (files : List File) : Res (List File) :=
  match fuel with
  | 0 => .diverge
  | fuel + 1 =>
    if i < (msg.length : Int) then
      if i < 0 then .panic
      else
        match readNext (msg.drop i.toNat) with
        | none => .panic
        | some r =>
          if r.next = 0 then .fail files i
          else if r.tag = 1 then
            match parseFileLoop fuel (r.b.getD []) 0 {} with
            | .ok f => parseDescLoop fuel msg (i + r.next) (files ++ [f])
            | .fail _ e => .fail files (i + e)
            | .panic => .panic
            | .diverge => .diverge
          else parseDescLoop fuel msg (i + r.next) files
    else .ok files

/-- Fuel that is ample for every terminating execution: each level of the
walk visits at most `msg.length + 14` distinct cursor positions, and the
nesting depth is at most `msg.length / 2 + 1`. -/
def bigFuel (msg : Bytes) : Nat := (msg.length + 16) * (msg.length + 16)

/-- Go `parseField(msg)`. -/
def parseField (msg : Bytes) : Res Field := parseFieldLoop (bigFuel msg) msg 0 {}

/-- Go `parseMessage(msg)`. -/
def parseMessage (msg : Bytes) : Res Message := parseMessageLoop (bigFuel msg) msg 0 (.mk [] [] [])

/-- Go `parseFile(msg)`. -/
def parseFile (msg : Bytes) : Res File := parseFileLoop (bigFuel msg) msg 0 {}

/-- Go `parseDescriptor(msg)`. -/
def parseDescriptor (msg : Bytes) : Res (List File) := parseDescLoop (bigFuel msg) msg 0 []

/-! ### Well-formed wire buffers

To state the specification's algebraic properties (unknown-field
insertion, last-entry-wins, the concrete scenarios) we need a notion of a
well-formed buffer. A well-formed buffer is the encoding of a list of
entries; an entry is a `(tag, wireType, value)` triple whose
length-delimited payload is either raw bytes or, for a tag that the
walkers hand to a nested walker, a list of sub-entries. -/

/-- Standard protobuf varint encoding (7 bits per byte, little-endian,
continuation bit on every byte but the last), with an explicit bound on
the number of digit positions so the definition is structural. -/
def encodeUvarintF : Nat → Nat → Bytes
  | 0, v => [v]
  | fl + 1, v => if v < 128 then [v] else (v % 128 + 128) :: encodeUvarintF fl (v / 128)

/-- Standard protobuf varint encoding; 15 digit positions cover every
value below `2 ^ 105`, in particular every `uint64`. -/
def encodeUvarint (v : Nat) : Bytes := encodeUvarintF 15 v

/-- One wire-format entry: a varint field, a 32/64-bit fixed field, a
length-delimited field with raw payload (`strE`), or a length-delimited
field whose payload is itself a sequence of entries (`msgE`). -/
inductive Entry where
  | varintE (t v : Nat)
  | fixed32E (t : Nat) (bs : Bytes)
  | fixed64E (t : Nat) (bs : Bytes)
  | strE (t : Nat) (p : Bytes)
  | msgE (t : Nat) (cs : List Entry)
deriving Repr

mutual

/-- Wire encoding of one entry: header varint `tag*8 + wireType`, then
the wire-type-specific body. -/
def encodeEntry : Entry → Bytes
  | .varintE t v => encodeUvarint (t * 8) ++ encodeUvarint v
  | .fixed32E t bs => encodeUvarint (t * 8 + 5) ++ bs
  | .fixed64E t bs => encodeUvarint (t * 8 + 1) ++ bs
  | .strE t p => encodeUvarint (t * 8 + 2) ++ (encodeUvarint p.length ++ p)
  | .msgE t cs =>
    encodeUvarint (t * 8 + 2) ++ (encodeUvarint (encodeEntries cs).length ++ encodeEntries cs)

/-- Concatenated wire encoding of a list of entries. -/
def encodeEntries : List Entry → Bytes
  | [] => []
  | e :: es => encodeEntry e ++ encodeEntries es

end

/-- The tag number of an entry. -/
def entryTag : Entry → Nat
  | .varintE t _ => t
  | .fixed32E t _ => t
  | .fixed64E t _ => t
  | .strE t _ => t
  | .msgE t _ => t

/-- The scalar `d` that `readNext` reports for an entry. -/
def entryD : Entry → Nat
  | .varintE _ v => v
  | .fixed32E _ bs => leUintN 4 bs
  | .fixed64E _ bs => leUintN 8 bs
  | .strE _ _ => 0
  | .msgE _ _ => 0

/-- The slice `b` that `readNext` reports for an entry. -/
def entryB : Entry → Option Bytes
  | .strE _ p => some p
  | .msgE _ cs => some (encodeEntries cs)
  | _ => none

/-- The sub-entries of a `msgE` entry (empty for every other shape). -/
def entrySub : Entry → List Entry
  | .msgE _ cs => cs
  | _ => []

/-- The four walker kinds (one per recursive parse routine). -/
inductive Kind where
  | fileset | file | message | field
deriving DecidableEq, Repr

/-- Which tags a walker hands to a nested walker: FileSet tag 1 → File,
File tag 4 → Message, Message tag 2 → Field, Message tag 4 → Message. -/
def childKind : Kind → Nat → Option Kind
  | .fileset, t => if t = 1 then some .file else none
  | .file, t => if t = 4 then some .message else none
  | .message, t => if t = 2 then some .field else if t = 4 then some .message else none
  | .field, _ => none

/-- The tags each walker recognizes (all others are skipped). -/
def recognizedTag : Kind → Nat → Bool
  | .fileset, t => t == 1
  | .file, t => t == 1 || t == 2 || t == 4 || t == 12
  | .message, t => t == 1 || t == 2 || t == 4
  | .field, t => t == 1 || t == 3 || t == 4 || t == 5 || t == 9

mutual

/-- Well-formedness of one entry for a walker kind `k`: the tag is a
legal protobuf tag number, scalar values fit in 64 bits, fixed bodies
have their exact width, payload lengths fit in a Go `int`, a tag that the
walker would hand to a nested walker only occurs on a `msgE` entry, and
sub-entries are well-formed for the child kind. -/
def wfEntry : Kind → Entry → Prop
  | k, .varintE t v => (1 ≤ t ∧ t < 2 ^ 29) ∧ v < 2 ^ 64 ∧ childKind k t = none
  | k, .fixed32E t bs => (1 ≤ t ∧ t < 2 ^ 29) ∧ bs.length = 4 ∧ childKind k t = none
  | k, .fixed64E t bs => (1 ≤ t ∧ t < 2 ^ 29) ∧ bs.length = 8 ∧ childKind k t = none
  | k, .strE t p => (1 ≤ t ∧ t < 2 ^ 29) ∧ p.length < 2 ^ 63 ∧ childKind k t = none
  | k, .msgE t cs => (1 ≤ t ∧ t < 2 ^ 29) ∧ (encodeEntries cs).length < 2 ^ 63 ∧
      (match childKind k t with
       | some k2 => wfEntries k2 cs
       | none => True)

/-- Well-formedness of an entry list for a walker kind. -/
def wfEntries : Kind → List Entry → Prop
  | _, [] => True
  | k, e :: es => wfEntry k e ∧ wfEntries k es

end

mutual

/-- Number of walker-loop iterations needed for one entry (one for the
entry itself plus the iterations of the nested walk, if any). -/
def weightE : Entry → Nat
  | .msgE _ cs => 1 + weightL cs
  | _ => 1

/-- Number of walker-loop iterations needed for an entry list. -/
def weightL : List Entry → Nat
  | [] => 0
  | e :: es => weightE e + weightL es

end

/-- Entry-level restatement of the `parseField` loop: fold `fieldStep`
over the entries. -/
def dField : List Entry → Field → Field
  | [], f => f
  | e :: es, f => dField es (fieldStep f (entryTag e) (entryD e) (entryB e))

/-- Entry-level restatement of the `parseMessage` loop. -/
def dMessage : List Entry → Message → Message
  | [], m => m
  | e :: es, m =>
    dMessage es
      (if entryTag e = 1 then m.setName ((entryB e).getD [])
       else if entryTag e = 2 then m.addField (dField (entrySub e) {})
       else if entryTag e = 4 then m.addNested (dMessage (entrySub e) (.mk [] [] []))
       else m)
termination_by l _ => sizeOf l
decreasing_by
  all_goals cases e <;> simp [entrySub] <;> omega

/-- Entry-level restatement of the `parseFile` loop. -/
def dFile : List Entry → File → File
  | [], f => f
  | e :: es, f =>
    dFile es
      (if entryTag e = 1 then { f with name := (entryB e).getD [] }
       else if entryTag e = 2 then { f with package := (entryB e).getD [] }
       else if entryTag e = 4 then
         { f with message := f.message ++ [dMessage (entrySub e) (.mk [] [] [])] }
       else if entryTag e = 12 then { f with format := (entryB e).getD [] }
       else f)

/-- Entry-level restatement of the `parseDescriptor` loop. -/
def dFileSet : List Entry → List File → List File
  | [], fs => fs
  | e :: es, fs =>
    dFileSet es (if entryTag e = 1 then fs ++ [dFile (entrySub e) {}] else fs)

/-- An entry the walker kind `k` merely skips: well-formed but with a tag
number that `k` does not recognize. -/
def unknownFor (k : Kind) (u : Entry) : Prop :=
  wfEntry k u ∧ recognizedTag k (entryTag u) = false

/-- The relation `Ins k l l2`: the entry list `l2` arises from `l` by inserting one
well-formed entry with an unrecognized tag number, at an arbitrary entry
boundary — either at the current level (`here`), or inside the payload of
an entity-bearing `msgE` entry, at any depth (`deeper`). The `deeper`
case records that the grown payload still fits a Go `int`. -/
inductive Ins : Kind → List Entry → List Entry → Prop where
  | here (k : Kind) (l1 l2 : List Entry) (u : Entry) :
      unknownFor k u → Ins k (l1 ++ l2) (l1 ++ u :: l2)
  | deeper (k k2 : Kind) (t : Nat) (l1 l2 cs cs2 : List Entry) :
      childKind k t = some k2 → (encodeEntries cs2).length < 2 ^ 63 →
      Ins k2 cs cs2 →
      Ins k (l1 ++ .msgE t cs :: l2) (l1 ++ .msgE t cs2 :: l2)

/-- Kind-indexed statement that two entry lists decode to the same
entity. -/
def dEq : Kind → List Entry → List Entry → Prop
  | .fileset, l, l2 => ∀ acc, dFileSet l2 acc = dFileSet l acc
  | .file, l, l2 => ∀ acc, dFile l2 acc = dFile l acc
  | .message, l, l2 => ∀ acc, dMessage l2 acc = dMessage l acc
  | .field, l, l2 => ∀ acc, dField l2 acc = dField l acc

/-- A 22-byte buffer on which the descriptor walker loops forever: eleven
`0x00` bytes, each skipped as a one-byte tag-0 header, bring the cursor to
11; the eleven `0x80` continuation bytes there overflow the header varint,
`readNext` reports `next = -11`, the walker checks only `n == 0` and adds
`-11` to the cursor, returning it to 0. -/
def loopBuf : Bytes := List.replicate 11 0 ++ List.replicate 11 128

/-! ### Varint round trip -/

lemma or_shiftLeft_eq_add {x y s : Nat} (h : x < 2 ^ s) :
    x ||| y <<< s = y * 2 ^ s + x := by
  rw [Nat.shiftLeft_eq, Nat.lor_comm, Nat.mul_comm y]
  exact (Nat.mul_add_lt_is_or h y).symm

lemma encodeUvarintF_pos (fl v : Nat) : 0 < (encodeUvarintF fl v).length := by
  cases fl with
  | zero => simp [encodeUvarintF]
  | succ fl =>
    rw [encodeUvarintF]
    split <;> simp

lemma encodeUvarint_pos (v : Nat) : 0 < (encodeUvarint v).length := encodeUvarintF_pos 15 v

lemma uvarintAuxF_encode : ∀ (fl v : Nat) (rest : Bytes) (i x : Nat), v < 128 ^ fl →
    i ≤ 9 → v < 2 ^ (64 - 7 * i) → x < 2 ^ (7 * i) →
    uvarintAux (encodeUvarintF fl v ++ rest) i (7 * i) x
      = (x + v * 2 ^ (7 * i), (i : Int) + (encodeUvarintF fl v).length) := by
  intro fl
  induction fl with
  | zero =>
    intro v rest i x hfl hi hv hx
    have hv0 : v = 0 := by simpa using hfl
    subst hv0
    show uvarintAux (0 :: rest) i (7 * i) x = _
    rw [uvarintAux, if_neg (by omega)]
    have hxlt : x < 2 ^ 64 :=
      lt_of_lt_of_le hx (Nat.pow_le_pow_right (by norm_num) (by omega))
    norm_num [Nat.mod_eq_of_lt hxlt, encodeUvarintF]
    omega
  | succ fl IH =>
    intro v rest i x hfl hi hv hx
    rw [encodeUvarintF]
    by_cases h128 : v < 128
    · rw [if_pos h128]
      show uvarintAux (v :: rest) i (7 * i) x = _
      rw [uvarintAux]
      rw [if_neg (by omega)]
      have hvmod : v % 256 = v := Nat.mod_eq_of_lt (by omega)
      rw [hvmod, if_pos (by omega)]
      have hnot9 : ¬(i = 9 ∧ 1 < v) := by
        rintro ⟨rfl, h1⟩
        norm_num at hv
        omega
      rw [if_neg hnot9]
      have hor : x ||| v <<< (7 * i) = v * 2 ^ (7 * i) + x := or_shiftLeft_eq_add hx
      have hpow : 2 ^ (7 * i) * 2 ^ (64 - 7 * i) = 2 ^ 64 := by
        rw [← pow_add]; congr 1; omega
      have hlt : v * 2 ^ (7 * i) + x < 2 ^ 64 := by
        have h1 : (v + 1) * 2 ^ (7 * i) ≤ 2 ^ (64 - 7 * i) * 2 ^ (7 * i) :=
          Nat.mul_le_mul_right _ hv
        nlinarith [hx, h1, hpow]
      rw [hor, Nat.mod_eq_of_lt hlt]
      simp [Nat.add_comm]
    · rw [if_neg h128]
      show uvarintAux ((v % 128 + 128) :: (encodeUvarintF fl (v / 128) ++ rest)) i (7 * i) x
        = _
      have hi8 : i ≤ 8 := by
        by_contra hc
        have : i = 9 := by omega
        subst this
        norm_num at hv
        omega
      rw [uvarintAux]
      rw [if_neg (by omega)]
      have hbmod : (v % 128 + 128) % 256 = v % 128 + 128 := Nat.mod_eq_of_lt (by omega)
      rw [hbmod, if_neg (by omega)]
      have hand : (v % 128 + 128) &&& 127 = v % 128 := by
        have h7 := Nat.and_pow_two_sub_one_eq_mod (v % 128 + 128) 7
        norm_num at h7
        omega
      rw [hand]
      have horx : x ||| (v % 128) <<< (7 * i) = (v % 128) * 2 ^ (7 * i) + x :=
        or_shiftLeft_eq_add hx
      have hx2 : (v % 128) * 2 ^ (7 * i) + x < 2 ^ (7 * (i + 1)) := by
        have h1 : (v % 128) * 2 ^ (7 * i) + x < (v % 128 + 1) * 2 ^ (7 * i) := by nlinarith [hx]
        have h2 : (v % 128 + 1) * 2 ^ (7 * i) ≤ 128 * 2 ^ (7 * i) :=
          Nat.mul_le_mul_right _ (by omega)
        have h3 : (128 : Nat) * 2 ^ (7 * i) = 2 ^ (7 * (i + 1)) := by
          rw [show 7 * (i + 1) = 7 * i + 7 by ring, pow_add]
          ring
        omega
      have hxlt64 : (v % 128) * 2 ^ (7 * i) + x < 2 ^ 64 := by
        calc (v % 128) * 2 ^ (7 * i) + x < 2 ^ (7 * (i + 1)) := hx2
        _ ≤ 2 ^ 64 := Nat.pow_le_pow_right (by norm_num) (by omega)
      rw [horx, Nat.mod_eq_of_lt hxlt64]
      have hfld : v / 128 < 128 ^ fl := by
        rw [Nat.div_lt_iff_lt_mul (by norm_num : (0:Nat) < 128)]
        calc v < 128 ^ (fl + 1) := hfl
        _ = 128 ^ fl * 128 := by rw [pow_succ]
      have hvd : v / 128 < 2 ^ (64 - 7 * (i + 1)) := by
        rw [Nat.div_lt_iff_lt_mul (by norm_num : (0:Nat) < 128)]
        calc v < 2 ^ (64 - 7 * i) := hv
        _ = 2 ^ (64 - 7 * (i + 1)) * 128 := by
            rw [show (128 : Nat) = 2 ^ 7 by norm_num, ← pow_add]
            congr 1
            omega
      have hrec := IH (v / 128) rest (i + 1) ((v % 128) * 2 ^ (7 * i) + x)
        hfld (by omega) hvd hx2
      rw [show 7 * i + 7 = 7 * (i + 1) by ring, hrec]
      have hsplit : 128 * (v / 128) + v % 128 = v := Nat.div_add_mod v 128
      rw [Prod.mk.injEq]
      constructor
      · rw [show 7 * (i + 1) = 7 * i + 7 by ring, pow_add]
        nlinarith [hsplit]
      · simp only [List.length_cons]
        push_cast
        ring

lemma uvarint_encode (v : Nat) (hv : v < 2 ^ 64) (rest : Bytes) :
    uvarint (encodeUvarint v ++ rest) = (v, ((encodeUvarint v).length : Int)) := by
  have h15 : v < 128 ^ 15 := lt_of_lt_of_le hv (by norm_num)
  have h := uvarintAuxF_encode 15 v rest 0 0 h15 (by norm_num) (by simpa using hv)
    (by norm_num)
  simpa [uvarint, encodeUvarint] using h

/-! ### Reading one encoded entry -/

lemma header_tag (t k : Nat) (hk : k < 8) (ht : t < 2 ^ 29) :
    ((t * 8 + k) >>> 3) % 2 ^ 32 = t := by
  rw [Nat.shiftRight_eq_div_pow]
  norm_num at ht ⊢
  omega

lemma header_kind (t k : Nat) (hk : k < 8) : (t * 8 + k) &&& 7 = k := by
  have h := Nat.and_pow_two_sub_one_eq_mod (t * 8 + k) 3
  norm_num at h
  omega

lemma header_lt (t k : Nat) (hk : k < 8) (ht : t < 2 ^ 29) : t * 8 + k < 2 ^ 64 := by
  norm_num at ht ⊢
  omega

lemma leUintN_append (n : Nat) : ∀ (bs rest : Bytes), bs.length = n →
    leUintN n (bs ++ rest) = leUintN n bs := by
  induction n with
  | zero => intro bs rest h; rfl
  | succ n IH =>
    intro bs rest h
    match bs with
    | [] => simp at h
    | b :: bs2 =>
      simp only [List.cons_append, leUintN, List.append_eq]
      rw [IH bs2 rest (by simpa using h)]

lemma readNext_varintE (t v : Nat) (rest : Bytes) (ht1 : 1 ≤ t) (ht : t < 2 ^ 29)
    (hv : v < 2 ^ 64) :
    readNext (encodeEntry (.varintE t v) ++ rest)
      = some ⟨v, none, t, ((encodeEntry (.varintE t v)).length : Int)⟩ := by
  have htag : ((t * 8) >>> 3) % 2 ^ 32 = t := by
    have h := header_tag t 0 (by norm_num) ht
    simpa using h
  have hkind : (t * 8) &&& 7 = 0 := by
    have h := header_kind t 0 (by norm_num)
    simpa using h
  have hh : t * 8 < 2 ^ 64 := by
    have h := header_lt t 0 (by norm_num) ht
    simpa using h
  have henc : encodeEntry (Entry.varintE t v) = encodeUvarint (t * 8) ++ encodeUvarint v := rfl
  rw [henc, List.append_assoc]
  simp only [readNext]
  rw [uvarint_encode (t * 8) hh]
  simp only [Int.toNat_natCast, List.drop_left]
  rw [uvarint_encode v hv]
  simp only [htag, hkind]
  rw [if_neg (show ¬ (t = 0) by omega)]
  simp only [if_true, eq_self_iff_true]
  rw [if_neg (show ¬ ((((encodeUvarint v).length : Int)) < 0) by omega)]
  simp [List.length_append]

lemma readNext_seqHdr (t : Nat) (p rest : Bytes) (ht1 : 1 ≤ t) (ht : t < 2 ^ 29)
    (hp : p.length < 2 ^ 63) :
    readNext ((encodeUvarint (t * 8 + 2) ++ (encodeUvarint p.length ++ p)) ++ rest)
      = some ⟨0, some p, t,
          ((encodeUvarint (t * 8 + 2) ++ (encodeUvarint p.length ++ p)).length : Int)⟩ := by
  have htag : ((t * 8 + 2) >>> 3) % 2 ^ 32 = t := header_tag t 2 (by norm_num) ht
  have hkind : (t * 8 + 2) &&& 7 = 2 := header_kind t 2 (by norm_num)
  have hh : t * 8 + 2 < 2 ^ 64 := header_lt t 2 (by norm_num) ht
  have hplen : p.length < 2 ^ 64 := by
    calc p.length < 2 ^ 63 := hp
    _ < 2 ^ 64 := by norm_num
  rw [List.append_assoc, List.append_assoc]
  simp only [readNext]
  rw [uvarint_encode (t * 8 + 2) hh]
  simp only [Int.toNat_natCast, List.drop_left]
  rw [uvarint_encode p.length hplen]
  simp only [htag, hkind]
  rw [if_neg (show ¬ (t = 0) by omega)]
  simp only [if_true, eq_self_iff_true,
    if_neg (show ¬ ((2:Nat) = 0) by norm_num), if_neg (show ¬ ((2:Nat) = 5) by norm_num),
    if_neg (show ¬ ((2:Nat) = 1) by norm_num)]
  have hL1 : 0 < (encodeUvarint p.length).length := encodeUvarint_pos _
  rw [if_neg (show ¬ ((((encodeUvarint p.length).length : Int)) = 0) by omega)]
  have htoI : toInt64 p.length = (p.length : Int) := by
    rw [toInt64, Nat.mod_eq_of_lt hplen, if_pos]
    exact_mod_cast hp
  rw [htoI]
  have hbounds : (0 : Int) ≤ ((encodeUvarint (t * 8 + 2)).length : Int)
        + ((encodeUvarint p.length).length : Int)
      ∧ ((encodeUvarint (t * 8 + 2)).length : Int) + ((encodeUvarint p.length).length : Int)
        ≤ ((encodeUvarint (t * 8 + 2)).length : Int) + ((encodeUvarint p.length).length : Int)
          + (p.length : Int)
      ∧ ((encodeUvarint (t * 8 + 2)).length : Int) + ((encodeUvarint p.length).length : Int)
          + (p.length : Int)
        ≤ ((encodeUvarint (t * 8 + 2) ++ (encodeUvarint p.length ++ (p ++ rest))).length : Int) := by
    refine ⟨by omega, by omega, ?_⟩
    simp only [List.length_append]
    push_cast
    omega
  rw [if_pos hbounds]
  have hstart : (((encodeUvarint (t * 8 + 2)).length : Int)
      + ((encodeUvarint p.length).length : Int)).toNat
      = (encodeUvarint (t * 8 + 2)).length + (encodeUvarint p.length).length := by
    omega
  have hlenslice : (((encodeUvarint (t * 8 + 2)).length : Int)
      + ((encodeUvarint p.length).length : Int) + (p.length : Int)
      - (((encodeUvarint (t * 8 + 2)).length : Int)
        + ((encodeUvarint p.length).length : Int))).toNat = p.length := by
    omega
  rw [hstart, hlenslice]
  have hdrop : (encodeUvarint (t * 8 + 2) ++ (encodeUvarint p.length ++ (p ++ rest))).drop
      ((encodeUvarint (t * 8 + 2)).length + (encodeUvarint p.length).length)
      = p ++ rest := by
    rw [show encodeUvarint (t * 8 + 2) ++ (encodeUvarint p.length ++ (p ++ rest))
        = (encodeUvarint (t * 8 + 2) ++ encodeUvarint p.length) ++ (p ++ rest) by simp,
      show (encodeUvarint (t * 8 + 2)).length + (encodeUvarint p.length).length
        = (encodeUvarint (t * 8 + 2) ++ encodeUvarint p.length).length by simp]
    exact List.drop_left _ _
  rw [hdrop, List.take_left]
  simp [List.length_append]
  omega

lemma readNext_fixed32 (t : Nat) (bs rest : Bytes) (ht1 : 1 ≤ t) (ht : t < 2 ^ 29)
    (hbs : bs.length = 4) :
    readNext ((encodeUvarint (t * 8 + 5) ++ bs) ++ rest)
      = some ⟨leUintN 4 bs, none, t, ((encodeUvarint (t * 8 + 5) ++ bs).length : Int)⟩ := by
  have htag : ((t * 8 + 5) >>> 3) % 2 ^ 32 = t := header_tag t 5 (by norm_num) ht
  have hkind : (t * 8 + 5) &&& 7 = 5 := header_kind t 5 (by norm_num)
  have hh : t * 8 + 5 < 2 ^ 64 := header_lt t 5 (by norm_num) ht
  rw [List.append_assoc]
  simp only [readNext]
  rw [uvarint_encode (t * 8 + 5) hh]
  simp only [Int.toNat_natCast, List.drop_left]
  simp only [htag, hkind]
  rw [if_neg (show ¬ (t = 0) by omega)]
  simp only [if_true, eq_self_iff_true,
    if_neg (show ¬ ((5:Nat) = 0) by norm_num)]
  rw [if_pos (show (encodeUvarint (t * 8 + 5)).length + 4
      ≤ (encodeUvarint (t * 8 + 5) ++ (bs ++ rest)).length by
    simp only [List.length_append]
    omega)]
  rw [leUintN_append 4 bs rest hbs]
  simp [List.length_append, hbs]

lemma readNext_fixed64 (t : Nat) (bs rest : Bytes) (ht1 : 1 ≤ t) (ht : t < 2 ^ 29)
    (hbs : bs.length = 8) :
    readNext ((encodeUvarint (t * 8 + 1) ++ bs) ++ rest)
      = some ⟨leUintN 8 bs, none, t, ((encodeUvarint (t * 8 + 1) ++ bs).length : Int)⟩ := by
  have htag : ((t * 8 + 1) >>> 3) % 2 ^ 32 = t := header_tag t 1 (by norm_num) ht
  have hkind : (t * 8 + 1) &&& 7 = 1 := header_kind t 1 (by norm_num)
  have hh : t * 8 + 1 < 2 ^ 64 := header_lt t 1 (by norm_num) ht
  rw [List.append_assoc]
  simp only [readNext]
  rw [uvarint_encode (t * 8 + 1) hh]
  simp only [Int.toNat_natCast, List.drop_left]
  simp only [htag, hkind]
  rw [if_neg (show ¬ (t = 0) by omega)]
  simp only [if_true, eq_self_iff_true,
    if_neg (show ¬ ((1:Nat) = 0) by norm_num), if_neg (show ¬ ((1:Nat) = 5) by norm_num)]
  rw [if_pos (show (encodeUvarint (t * 8 + 1)).length + 8
      ≤ (encodeUvarint (t * 8 + 1) ++ (bs ++ rest)).length by
    simp only [List.length_append]
    omega)]
  rw [leUintN_append 8 bs rest hbs]
  simp [List.length_append, hbs]

/-- Reading the encoding of one well-formed entry (followed by anything)
succeeds, reports the entry's scalar, slice and tag, and consumes exactly
the entry's encoded length. -/
lemma readNext_encodeEntry {k : Kind} {e : Entry} (rest : Bytes) (he : wfEntry k e) :
    readNext (encodeEntry e ++ rest)
      = some ⟨entryD e, entryB e, entryTag e, ((encodeEntry e).length : Int)⟩ := by
  cases e with
  | varintE t v =>
    simp only [wfEntry] at he
    obtain ⟨⟨ht1, ht⟩, hv, -⟩ := he
    simpa [entryD, entryB, entryTag] using readNext_varintE t v rest ht1 ht hv
  | fixed32E t bs =>
    simp only [wfEntry] at he
    obtain ⟨⟨ht1, ht⟩, hbs, -⟩ := he
    simpa [entryD, entryB, entryTag, encodeEntry] using readNext_fixed32 t bs rest ht1 ht hbs
  | fixed64E t bs =>
    simp only [wfEntry] at he
    obtain ⟨⟨ht1, ht⟩, hbs, -⟩ := he
    simpa [entryD, entryB, entryTag, encodeEntry] using readNext_fixed64 t bs rest ht1 ht hbs
  | strE t p =>
    simp only [wfEntry] at he
    obtain ⟨⟨ht1, ht⟩, hp, -⟩ := he
    simpa [entryD, entryB, entryTag, encodeEntry] using readNext_seqHdr t p rest ht1 ht hp
  | msgE t cs =>
    simp only [wfEntry] at he
    obtain ⟨⟨ht1, ht⟩, hp, -⟩ := he
    simpa [entryD, entryB, entryTag, encodeEntry] using
      readNext_seqHdr t (encodeEntries cs) rest ht1 ht hp

lemma encodeEntry_pos (e : Entry) : 0 < (encodeEntry e).length := by
  cases e with
  | varintE t v =>
    simp only [encodeEntry, List.length_append]
    have h := encodeUvarint_pos (t * 8)
    omega
  | fixed32E t bs =>
    simp only [encodeEntry, List.length_append]
    have h := encodeUvarint_pos (t * 8 + 5)
    omega
  | fixed64E t bs =>
    simp only [encodeEntry, List.length_append]
    have h := encodeUvarint_pos (t * 8 + 1)
    omega
  | strE t p =>
    simp only [encodeEntry, List.length_append]
    have h := encodeUvarint_pos (t * 8 + 2)
    omega
  | msgE t cs =>
    simp only [encodeEntry, List.length_append]
    have h := encodeUvarint_pos (t * 8 + 2)
    omega

lemma weightE_pos (e : Entry) : 1 ≤ weightE e := by
  cases e <;> simp [weightE]

mutual

lemma weightE_le : ∀ e : Entry, weightE e ≤ (encodeEntry e).length
  | .varintE t v => by
    have h := encodeEntry_pos (.varintE t v)
    simp only [weightE]
    omega
  | .fixed32E t bs => by
    have h := encodeEntry_pos (.fixed32E t bs)
    simp only [weightE]
    omega
  | .fixed64E t bs => by
    have h := encodeEntry_pos (.fixed64E t bs)
    simp only [weightE]
    omega
  | .strE t p => by
    have h := encodeEntry_pos (.strE t p)
    simp only [weightE]
    omega
  | .msgE t cs => by
    have h := weightL_le cs
    have h1 := encodeUvarint_pos (t * 8 + 2)
    have h2 := encodeUvarint_pos (encodeEntries cs).length
    simp only [weightE, encodeEntry, List.length_append]
    omega

lemma weightL_le : ∀ l : List Entry, weightL l ≤ (encodeEntries l).length
  | [] => by simp [weightL, encodeEntries]
  | e :: es => by
    have h1 := weightE_le e
    have h2 := weightL_le es
    simp only [weightL, encodeEntries, List.length_append]
    omega

end

/-! ### Unfolding the scan loops one iteration at a time -/

lemma parseFieldLoop_done (fuel : Nat) (msg : Bytes) (i : Int) (f : Field)
    (h : ¬ i < (msg.length : Int)) : parseFieldLoop (fuel + 1) msg i f = .ok f := by
  simp only [parseFieldLoop, if_neg h]

lemma parseFieldLoop_succ (fuel : Nat) (msg : Bytes) (i : Int) (f : Field)
    (d : Nat) (b : Option Bytes) (t : Nat) (nx : Int)
    (h0 : 0 ≤ i) (hlt : i < (msg.length : Int))
    (hr : readNext (msg.drop i.toNat) = some ⟨d, b, t, nx⟩) (hn : nx ≠ 0) :
    parseFieldLoop (fuel + 1) msg i f
      = parseFieldLoop fuel msg (i + nx) (fieldStep f t d b) := by
  simp only [parseFieldLoop, if_pos hlt, if_neg (show ¬ i < 0 by omega), hr, if_neg hn]

lemma parseMessageLoop_done (fuel : Nat) (msg : Bytes) (i : Int) (m : Message)
    (h : ¬ i < (msg.length : Int)) : parseMessageLoop (fuel + 1) msg i m = .ok m := by
  simp only [parseMessageLoop, if_neg h]

lemma parseMessageLoop_succ (fuel : Nat) (msg : Bytes) (i : Int) (m : Message)
    (d : Nat) (b : Option Bytes) (t : Nat) (nx : Int)
    (h0 : 0 ≤ i) (hlt : i < (msg.length : Int))
    (hr : readNext (msg.drop i.toNat) = some ⟨d, b, t, nx⟩) (hn : nx ≠ 0) :
    parseMessageLoop (fuel + 1) msg i m
      = (if t = 1 then
          parseMessageLoop fuel msg (i + nx) (m.setName (b.getD []))
        else if t = 2 then
          match parseFieldLoop fuel (b.getD []) 0 {} with
          | .ok f => parseMessageLoop fuel msg (i + nx) (m.addField f)
          | .fail _ e => .fail m (i + e)
          | .panic => .panic
          | .diverge => .diverge
        else if t = 4 then
          match parseMessageLoop fuel (b.getD []) 0 (.mk [] [] []) with
          | .ok nm => parseMessageLoop fuel msg (i + nx) (m.addNested nm)
          | .fail _ e => .fail m (i + e)
          | .panic => .panic
          | .diverge => .diverge
        else parseMessageLoop fuel msg (i + nx) m) := by
  conv_lhs => rw [parseMessageLoop]
  simp only [if_pos hlt, if_neg (show ¬ i < 0 by omega), hr, if_neg hn]

lemma parseFileLoop_done (fuel : Nat) (msg : Bytes) (i : Int) (f : File)
    (h : ¬ i < (msg.length : Int)) : parseFileLoop (fuel + 1) msg i f = .ok f := by
  simp only [parseFileLoop, if_neg h]

lemma parseFileLoop_succ (fuel : Nat) (msg : Bytes) (i : Int) (f : File)
    (d : Nat) (b : Option Bytes) (t : Nat) (nx : Int)
    (h0 : 0 ≤ i) (hlt : i < (msg.length : Int))
    (hr : readNext (msg.drop i.toNat) = some ⟨d, b, t, nx⟩) (hn : nx ≠ 0) :
    parseFileLoop (fuel + 1) msg i f
      = (if t = 1 then
          parseFileLoop fuel msg (i + nx) { f with name := b.getD [] }
        else if t = 2 then
          parseFileLoop fuel msg (i + nx) { f with package := b.getD [] }
        else if t = 4 then
          match parseMessageLoop fuel (b.getD []) 0 (.mk [] [] []) with
          | .ok m => parseFileLoop fuel msg (i + nx) { f with message := f.message ++ [m] }
          | .fail _ e => .fail f (i + e)
          | .panic => .panic
          | .diverge => .diverge
        else if t = 12 then
          parseFileLoop fuel msg (i + nx) { f with format := b.getD [] }
        else parseFileLoop fuel msg (i + nx) f) := by
  conv_lhs => rw [parseFileLoop]
  simp only [if_pos hlt, if_neg (show ¬ i < 0 by omega), hr, if_neg hn]

lemma parseDescLoop_done (fuel : Nat) (msg : Bytes) (i : Int) (files : List File)
    (h : ¬ i < (msg.length : Int)) : parseDescLoop (fuel + 1) msg i files = .ok files := by
  simp only [parseDescLoop, if_neg h]

lemma parseDescLoop_succ (fuel : Nat) (msg : Bytes) (i : Int) (files : List File)
    (d : Nat) (b : Option Bytes) (t : Nat) (nx : Int)
    (h0 : 0 ≤ i) (hlt : i < (msg.length : Int))
    (hr : readNext (msg.drop i.toNat) = some ⟨d, b, t, nx⟩) (hn : nx ≠ 0) :
    parseDescLoop (fuel + 1) msg i files
      = (if t = 1 then
          match parseFileLoop fuel (b.getD []) 0 {} with
          | .ok f => parseDescLoop fuel msg (i + nx) (files ++ [f])
          | .fail _ e => .fail files (i + e)
          | .panic => .panic
          | .diverge => .diverge
        else parseDescLoop fuel msg (i + nx) files) := by
  conv_lhs => rw [parseDescLoop]
  simp only [if_pos hlt, if_neg (show ¬ i < 0 by omega), hr, if_neg hn]

/-! ### The walkers on well-formed buffers -/

lemma parseFieldLoop_encode : ∀ (l : List Entry) (fuel : Nat) (pre : Bytes) (f : Field),
    wfEntries .field l → weightL l + 1 ≤ fuel →
    parseFieldLoop fuel (pre ++ encodeEntries l) (pre.length : Int) f = .ok (dField l f) := by
  intro l
  induction l with
  | nil =>
    intro fuel pre f _ hfuel
    obtain ⟨n, rfl⟩ : ∃ n, fuel = n + 1 := ⟨fuel - 1, by omega⟩
    rw [show encodeEntries ([] : List Entry) = [] from rfl, List.append_nil]
    exact parseFieldLoop_done n pre _ f (by omega)
  | cons e es IH =>
    intro fuel pre f hwf hfuel
    simp only [wfEntries] at hwf
    obtain ⟨hwe, hwes⟩ := hwf
    simp only [weightL] at hfuel
    have hwpos := weightE_pos e
    obtain ⟨n, rfl⟩ : ∃ n, fuel = n + 1 := ⟨fuel - 1, by omega⟩
    have hlen := encodeEntry_pos e
    rw [show encodeEntries (e :: es) = encodeEntry e ++ encodeEntries es from rfl]
    have hr0 := readNext_encodeEntry (k := .field) (e := e) (encodeEntries es) hwe
    have hstep := parseFieldLoop_succ n (pre ++ (encodeEntry e ++ encodeEntries es))
      (pre.length : Int) f (entryD e) (entryB e) (entryTag e) ((encodeEntry e).length : Int)
      (by omega)
      (by simp only [List.length_append]; push_cast; omega)
      (by simpa [List.drop_left] using hr0)
      (by show ((encodeEntry e).length : Int) ≠ 0; omega)
    rw [hstep]
    have harr : ((pre.length : Int) + ((encodeEntry e).length : Int))
        = (((pre ++ encodeEntry e).length : Nat) : Int) := by
      simp [List.length_append]
    have hmsg : pre ++ (encodeEntry e ++ encodeEntries es)
        = (pre ++ encodeEntry e) ++ encodeEntries es := by simp
    rw [harr, hmsg]
    rw [IH n (pre ++ encodeEntry e) (fieldStep f (entryTag e) (entryD e) (entryB e))
      hwes (by omega)]
    rfl

/-- A well-formed entry whose tag the walker hands to a nested walker is
necessarily a `msgE` with well-formed sub-entries. -/
lemma wf_entity_shape {k : Kind} {e : Entry} {c : Kind} (he : wfEntry k e)
    (hck : childKind k (entryTag e) = some c) :
    ∃ t cs, e = .msgE t cs ∧ wfEntries c cs := by
  cases e with
  | varintE t v =>
    simp only [wfEntry] at he
    simp only [entryTag] at hck
    rw [he.2.2] at hck
    cases hck
  | fixed32E t bs =>
    simp only [wfEntry] at he
    simp only [entryTag] at hck
    rw [he.2.2] at hck
    cases hck
  | fixed64E t bs =>
    simp only [wfEntry] at he
    simp only [entryTag] at hck
    rw [he.2.2] at hck
    cases hck
  | strE t p =>
    simp only [wfEntry] at he
    simp only [entryTag] at hck
    rw [he.2.2] at hck
    cases hck
  | msgE t cs =>
    refine ⟨t, cs, rfl, ?_⟩
    simp only [wfEntry] at he
    simp only [entryTag] at hck
    have h3 := he.2.2
    rw [hck] at h3
    exact h3

lemma entry_sizeOf_pos (e : Entry) : 1 ≤ sizeOf e := by
  cases e <;> simp <;> omega

lemma parseMessageLoop_encodeAux : ∀ (N : Nat) (l : List Entry), sizeOf l ≤ N →
    ∀ (fuel : Nat) (pre : Bytes) (m : Message),
    wfEntries .message l → weightL l + 1 ≤ fuel →
    parseMessageLoop fuel (pre ++ encodeEntries l) (pre.length : Int) m = .ok (dMessage l m) := by
  intro N
  induction N with
  | zero =>
    intro l hl
    exfalso
    cases l <;> simp at hl
  | succ N IHN =>
    intro l hl fuel pre m hwf hfuel
    cases l with
    | nil =>
      obtain ⟨n, rfl⟩ : ∃ n, fuel = n + 1 := ⟨fuel - 1, by omega⟩
      rw [show encodeEntries ([] : List Entry) = [] from rfl, List.append_nil]
      rw [show dMessage ([] : List Entry) m = m from by rw [dMessage]]
      exact parseMessageLoop_done n pre (pre.length : Int) m (by omega)
    | cons e es =>
      simp only [List.cons.sizeOf_spec] at hl
      have hespos := entry_sizeOf_pos e
      simp only [wfEntries] at hwf
      obtain ⟨hwe, hwes⟩ := hwf
      simp only [weightL] at hfuel
      have hwpos := weightE_pos e
      obtain ⟨n, rfl⟩ : ∃ n, fuel = n + 1 := ⟨fuel - 1, by omega⟩
      have hlen := encodeEntry_pos e
      rw [show encodeEntries (e :: es) = encodeEntry e ++ encodeEntries es from rfl]
      have hr0 := readNext_encodeEntry (k := .message) (e := e) (encodeEntries es) hwe
      have hstep := parseMessageLoop_succ n (pre ++ (encodeEntry e ++ encodeEntries es))
        (pre.length : Int) m (entryD e) (entryB e) (entryTag e) ((encodeEntry e).length : Int)
        (by omega)
        (by simp only [List.length_append]; push_cast; omega)
        (by simpa [List.drop_left] using hr0)
        (by show ((encodeEntry e).length : Int) ≠ 0; omega)
      rw [hstep]
      have harr : ((pre.length : Int) + ((encodeEntry e).length : Int))
          = (((pre ++ encodeEntry e).length : Nat) : Int) := by
        simp [List.length_append]
      have hmsg : pre ++ (encodeEntry e ++ encodeEntries es)
          = (pre ++ encodeEntry e) ++ encodeEntries es := by simp
      conv_rhs => rw [dMessage]
      by_cases h1 : entryTag e = 1
      · rw [if_pos h1, if_pos h1, harr, hmsg]
        exact IHN es (by omega) n (pre ++ encodeEntry e) _ hwes (by omega)
      · rw [if_neg h1, if_neg h1]
        by_cases h2 : entryTag e = 2
        · rw [if_pos h2, if_pos h2]
          obtain ⟨t, cs, rfl, hwcs⟩ := wf_entity_shape (c := .field) hwe
            (by rw [h2]; rfl)
          have ht2 : t = 2 := by simpa [entryTag] using h2
          subst ht2
          simp only [Entry.msgE.sizeOf_spec] at hl
          have hsub : entrySub (Entry.msgE 2 cs) = cs := rfl
          have hB : entryB (Entry.msgE 2 cs) = some (encodeEntries cs) := rfl
          rw [hB, hsub]
          have hwm : weightE (Entry.msgE 2 cs) = 1 + weightL cs := rfl
          rw [hwm] at hfuel hwpos
          have hnest := parseFieldLoop_encode cs n [] {} hwcs (by omega)
          simp only [List.nil_append, List.length_nil, Nat.cast_zero] at hnest
          simp only [Option.getD_some, hnest]
          rw [harr, hmsg]
          exact IHN es (by omega) n (pre ++ encodeEntry (Entry.msgE 2 cs)) _ hwes (by omega)
        · rw [if_neg h2, if_neg h2]
          by_cases h4 : entryTag e = 4
          · rw [if_pos h4, if_pos h4]
            obtain ⟨t, cs, rfl, hwcs⟩ := wf_entity_shape (c := .message) hwe
              (by rw [h4]; rfl)
            have ht4 : t = 4 := by simpa [entryTag] using h4
            subst ht4
            simp only [Entry.msgE.sizeOf_spec] at hl
            have hsub : entrySub (Entry.msgE 4 cs) = cs := rfl
            have hB : entryB (Entry.msgE 4 cs) = some (encodeEntries cs) := rfl
            rw [hB, hsub]
            have hwm : weightE (Entry.msgE 4 cs) = 1 + weightL cs := rfl
            rw [hwm] at hfuel hwpos
            have hnest := IHN cs (by omega) n [] (.mk [] [] []) hwcs (by omega)
            simp only [List.nil_append, List.length_nil, Nat.cast_zero] at hnest
            simp only [Option.getD_some, hnest]
            rw [harr, hmsg]
            exact IHN es (by omega) n (pre ++ encodeEntry (Entry.msgE 4 cs)) _ hwes (by omega)
          · rw [if_neg h4, if_neg h4, harr, hmsg]
            exact IHN es (by omega) n (pre ++ encodeEntry e) _ hwes (by omega)

lemma parseMessageLoop_encode (l : List Entry) (fuel : Nat) (pre : Bytes) (m : Message)
    (hwf : wfEntries .message l) (hfuel : weightL l + 1 ≤ fuel) :
    parseMessageLoop fuel (pre ++ encodeEntries l) (pre.length : Int) m = .ok (dMessage l m) :=
  parseMessageLoop_encodeAux (sizeOf l) l le_rfl fuel pre m hwf hfuel

lemma parseFileLoop_encode : ∀ (l : List Entry) (fuel : Nat) (pre : Bytes) (f : File),
    wfEntries .file l → weightL l + 1 ≤ fuel →
    parseFileLoop fuel (pre ++ encodeEntries l) (pre.length : Int) f = .ok (dFile l f) := by
  intro l
  induction l with
  | nil =>
    intro fuel pre f _ hfuel
    obtain ⟨n, rfl⟩ : ∃ n, fuel = n + 1 := ⟨fuel - 1, by omega⟩
    rw [show encodeEntries ([] : List Entry) = [] from rfl, List.append_nil]
    exact parseFileLoop_done n pre (pre.length : Int) f (by omega)
  | cons e es IH =>
    intro fuel pre f hwf hfuel
    simp only [wfEntries] at hwf
    obtain ⟨hwe, hwes⟩ := hwf
    simp only [weightL] at hfuel
    have hwpos := weightE_pos e
    obtain ⟨n, rfl⟩ : ∃ n, fuel = n + 1 := ⟨fuel - 1, by omega⟩
    have hlen := encodeEntry_pos e
    rw [show encodeEntries (e :: es) = encodeEntry e ++ encodeEntries es from rfl]
    have hr0 := readNext_encodeEntry (k := .file) (e := e) (encodeEntries es) hwe
    have hstep := parseFileLoop_succ n (pre ++ (encodeEntry e ++ encodeEntries es))
      (pre.length : Int) f (entryD e) (entryB e) (entryTag e) ((encodeEntry e).length : Int)
      (by omega)
      (by simp only [List.length_append]; push_cast; omega)
      (by simpa [List.drop_left] using hr0)
      (by show ((encodeEntry e).length : Int) ≠ 0; omega)
    rw [hstep]
    have harr : ((pre.length : Int) + ((encodeEntry e).length : Int))
        = (((pre ++ encodeEntry e).length : Nat) : Int) := by
      simp [List.length_append]
    have hmsg : pre ++ (encodeEntry e ++ encodeEntries es)
        = (pre ++ encodeEntry e) ++ encodeEntries es := by simp
    conv_rhs => rw [dFile]
    by_cases h1 : entryTag e = 1
    · rw [if_pos h1, if_pos h1, harr, hmsg]
      exact IH n (pre ++ encodeEntry e) _ hwes (by omega)
    · rw [if_neg h1, if_neg h1]
      by_cases h2 : entryTag e = 2
      · rw [if_pos h2, if_pos h2, harr, hmsg]
        exact IH n (pre ++ encodeEntry e) _ hwes (by omega)
      · rw [if_neg h2, if_neg h2]
        by_cases h4 : entryTag e = 4
        · rw [if_pos h4, if_pos h4]
          obtain ⟨t, cs, rfl, hwcs⟩ := wf_entity_shape (c := .message) hwe
            (by rw [h4]; rfl)
          have ht4 : t = 4 := by simpa [entryTag] using h4
          subst ht4
          have hsub : entrySub (Entry.msgE 4 cs) = cs := rfl
          have hB : entryB (Entry.msgE 4 cs) = some (encodeEntries cs) := rfl
          rw [hB, hsub]
          have hwm : weightE (Entry.msgE 4 cs) = 1 + weightL cs := rfl
          rw [hwm] at hfuel hwpos
          have hnest := parseMessageLoop_encode cs n [] (.mk [] [] []) hwcs (by omega)
          simp only [List.nil_append, List.length_nil, Nat.cast_zero] at hnest
          simp only [Option.getD_some, hnest]
          rw [harr, hmsg]
          exact IH n (pre ++ encodeEntry (Entry.msgE 4 cs)) _ hwes (by omega)
        · rw [if_neg h4, if_neg h4]
          by_cases h12 : entryTag e = 12
          · rw [if_pos h12, if_pos h12, harr, hmsg]
            exact IH n (pre ++ encodeEntry e) _ hwes (by omega)
          · rw [if_neg h12, if_neg h12, harr, hmsg]
            exact IH n (pre ++ encodeEntry e) _ hwes (by omega)

lemma parseDescLoop_encode : ∀ (l : List Entry) (fuel : Nat) (pre : Bytes) (files : List File),
    wfEntries .fileset l → weightL l + 1 ≤ fuel →
    parseDescLoop fuel (pre ++ encodeEntries l) (pre.length : Int) files
      = .ok (dFileSet l files) := by
  intro l
  induction l with
  | nil =>
    intro fuel pre files _ hfuel
    obtain ⟨n, rfl⟩ : ∃ n, fuel = n + 1 := ⟨fuel - 1, by omega⟩
    rw [show encodeEntries ([] : List Entry) = [] from rfl, List.append_nil]
    exact parseDescLoop_done n pre (pre.length : Int) files (by omega)
  | cons e es IH =>
    intro fuel pre files hwf hfuel
    simp only [wfEntries] at hwf
    obtain ⟨hwe, hwes⟩ := hwf
    simp only [weightL] at hfuel
    have hwpos := weightE_pos e
    obtain ⟨n, rfl⟩ : ∃ n, fuel = n + 1 := ⟨fuel - 1, by omega⟩
    have hlen := encodeEntry_pos e
    rw [show encodeEntries (e :: es) = encodeEntry e ++ encodeEntries es from rfl]
    have hr0 := readNext_encodeEntry (k := .fileset) (e := e) (encodeEntries es) hwe
    have hstep := parseDescLoop_succ n (pre ++ (encodeEntry e ++ encodeEntries es))
      (pre.length : Int) files (entryD e) (entryB e) (entryTag e) ((encodeEntry e).length : Int)
      (by omega)
      (by simp only [List.length_append]; push_cast; omega)
      (by simpa [List.drop_left] using hr0)
      (by show ((encodeEntry e).length : Int) ≠ 0; omega)
    rw [hstep]
    have harr : ((pre.length : Int) + ((encodeEntry e).length : Int))
        = (((pre ++ encodeEntry e).length : Nat) : Int) := by
      simp [List.length_append]
    have hmsg : pre ++ (encodeEntry e ++ encodeEntries es)
        = (pre ++ encodeEntry e) ++ encodeEntries es := by simp
    conv_rhs => rw [dFileSet]
    by_cases h1 : entryTag e = 1
    · rw [if_pos h1, if_pos h1]
      obtain ⟨t, cs, rfl, hwcs⟩ := wf_entity_shape (c := .file) hwe
        (by rw [h1]; rfl)
      have ht1 : t = 1 := by simpa [entryTag] using h1
      subst ht1
      have hsub : entrySub (Entry.msgE 1 cs) = cs := rfl
      have hB : entryB (Entry.msgE 1 cs) = some (encodeEntries cs) := rfl
      rw [hB, hsub]
      have hwm : weightE (Entry.msgE 1 cs) = 1 + weightL cs := rfl
      rw [hwm] at hfuel hwpos
      have hnest := parseFileLoop_encode cs n [] {} hwcs (by omega)
      simp only [List.nil_append, List.length_nil, Nat.cast_zero] at hnest
      simp only [Option.getD_some, hnest]
      rw [harr, hmsg]
      exact IH n (pre ++ encodeEntry (Entry.msgE 1 cs)) _ hwes (by omega)
    · rw [if_neg h1, if_neg h1, harr, hmsg]
      exact IH n (pre ++ encodeEntry e) _ hwes (by omega)

lemma bigFuel_ok (msg : Bytes) (w : Nat) (hw : w ≤ msg.length) : w + 1 ≤ bigFuel msg := by
  have h : msg.length + 16 ≤ (msg.length + 16) * (msg.length + 16) :=
    Nat.le_mul_of_pos_left _ (by omega)
  simp only [bigFuel]
  omega

/-- Wrapper-level correctness: `parseDescriptor` on any well-formed buffer succeeds with the
entry-level decode. -/
lemma parseDescriptor_encode (l : List Entry) (hwf : wfEntries .fileset l) :
    parseDescriptor (encodeEntries l) = .ok (dFileSet l []) := by
  have h := parseDescLoop_encode l (bigFuel (encodeEntries l)) [] [] hwf
    (bigFuel_ok _ _ (weightL_le l))
  simpa [parseDescriptor] using h

lemma parseFile_encode (l : List Entry) (hwf : wfEntries .file l) :
    parseFile (encodeEntries l) = .ok (dFile l {}) := by
  have h := parseFileLoop_encode l (bigFuel (encodeEntries l)) [] {} hwf
    (bigFuel_ok _ _ (weightL_le l))
  simpa [parseFile] using h

lemma parseMessage_encode (l : List Entry) (hwf : wfEntries .message l) :
    parseMessage (encodeEntries l) = .ok (dMessage l (.mk [] [] [])) := by
  have h := parseMessageLoop_encode l (bigFuel (encodeEntries l)) [] (.mk [] [] []) hwf
    (bigFuel_ok _ _ (weightL_le l))
  simpa [parseMessage] using h

lemma parseField_encode (l : List Entry) (hwf : wfEntries .field l) :
    parseField (encodeEntries l) = .ok (dField l {}) := by
  have h := parseFieldLoop_encode l (bigFuel (encodeEntries l)) [] {} hwf
    (bigFuel_ok _ _ (weightL_le l))
  simpa [parseField] using h

/-! ### The entry-level decoders as folds -/

lemma dField_append (l1 l2 : List Entry) (f : Field) :
    dField (l1 ++ l2) f = dField l2 (dField l1 f) := by
  induction l1 generalizing f with
  | nil => rfl
  | cons e l1 IH => simp only [List.cons_append, dField, List.append_eq, IH]

lemma dMessage_nil (m : Message) : dMessage [] m = m := by rw [dMessage]

lemma dMessage_cons (e : Entry) (es : List Entry) (m : Message) :
    dMessage (e :: es) m
      = dMessage es
          (if entryTag e = 1 then m.setName ((entryB e).getD [])
           else if entryTag e = 2 then m.addField (dField (entrySub e) {})
           else if entryTag e = 4 then m.addNested (dMessage (entrySub e) (.mk [] [] []))
           else m) := by
  rw [dMessage]

lemma dMessage_append (l1 l2 : List Entry) (m : Message) :
    dMessage (l1 ++ l2) m = dMessage l2 (dMessage l1 m) := by
  induction l1 generalizing m with
  | nil => rw [List.nil_append, dMessage_nil]
  | cons e l1 IH => rw [List.cons_append, dMessage_cons, dMessage_cons, IH]

lemma dFile_append (l1 l2 : List Entry) (f : File) :
    dFile (l1 ++ l2) f = dFile l2 (dFile l1 f) := by
  induction l1 generalizing f with
  | nil => rfl
  | cons e l1 IH => simp only [List.cons_append, dFile, List.append_eq, IH]

lemma dFileSet_append (l1 l2 : List Entry) (fs : List File) :
    dFileSet (l1 ++ l2) fs = dFileSet l2 (dFileSet l1 fs) := by
  induction l1 generalizing fs with
  | nil => rfl
  | cons e l1 IH => simp only [List.cons_append, dFileSet, List.append_eq, IH]

lemma recognizedTag_field {t : Nat} (h : recognizedTag .field t = false) :
    t ≠ 1 ∧ t ≠ 3 ∧ t ≠ 4 ∧ t ≠ 5 ∧ t ≠ 9 := by
  simp only [recognizedTag, Bool.or_eq_false_iff, beq_eq_false_iff_ne, ne_eq] at h
  tauto

lemma recognizedTag_message {t : Nat} (h : recognizedTag .message t = false) :
    t ≠ 1 ∧ t ≠ 2 ∧ t ≠ 4 := by
  simp only [recognizedTag, Bool.or_eq_false_iff, beq_eq_false_iff_ne, ne_eq] at h
  tauto

lemma recognizedTag_file {t : Nat} (h : recognizedTag .file t = false) :
    t ≠ 1 ∧ t ≠ 2 ∧ t ≠ 4 ∧ t ≠ 12 := by
  simp only [recognizedTag, Bool.or_eq_false_iff, beq_eq_false_iff_ne, ne_eq] at h
  tauto

lemma recognizedTag_fileset {t : Nat} (h : recognizedTag .fileset t = false) : t ≠ 1 := by
  simp only [recognizedTag, beq_eq_false_iff_ne, ne_eq] at h
  exact h

lemma dField_unknown (u : Entry) (l : List Entry) (f : Field)
    (hu : recognizedTag .field (entryTag u) = false) :
    dField (u :: l) f = dField l f := by
  obtain ⟨h1, h3, h4, h5, h9⟩ := recognizedTag_field hu
  simp only [dField, fieldStep, if_neg h1, if_neg h3, if_neg h4, if_neg h5, if_neg h9]

lemma dMessage_unknown (u : Entry) (l : List Entry) (m : Message)
    (hu : recognizedTag .message (entryTag u) = false) :
    dMessage (u :: l) m = dMessage l m := by
  obtain ⟨h1, h2, h4⟩ := recognizedTag_message hu
  rw [dMessage_cons, if_neg h1, if_neg h2, if_neg h4]

lemma dFile_unknown (u : Entry) (l : List Entry) (f : File)
    (hu : recognizedTag .file (entryTag u) = false) :
    dFile (u :: l) f = dFile l f := by
  obtain ⟨h1, h2, h4, h12⟩ := recognizedTag_file hu
  simp only [dFile, if_neg h1, if_neg h2, if_neg h4, if_neg h12]

lemma dFileSet_unknown (u : Entry) (l : List Entry) (fs : List File)
    (hu : recognizedTag .fileset (entryTag u) = false) :
    dFileSet (u :: l) fs = dFileSet l fs := by
  have h1 := recognizedTag_fileset hu
  simp only [dFileSet, if_neg h1]

/-! ### Insertion of unknown entries -/

lemma wfEntries_append {k : Kind} {l1 l2 : List Entry} :
    wfEntries k (l1 ++ l2) ↔ wfEntries k l1 ∧ wfEntries k l2 := by
  induction l1 with
  | nil => simp [wfEntries]
  | cons e l1 IH => simp [wfEntries, IH, and_assoc]

lemma wf_of_Ins {k : Kind} {l l2 : List Entry} (h : Ins k l l2) (hwf : wfEntries k l) :
    wfEntries k l2 := by
  induction h with
  | here k l1 l2 u hu =>
    rw [wfEntries_append] at hwf
    rw [wfEntries_append]
    exact ⟨hwf.1, hu.1, hwf.2⟩
  | deeper k k2 t l1 l2 cs cs2 hck hlen2 hins IH =>
    rw [wfEntries_append] at hwf
    rw [wfEntries_append]
    obtain ⟨hl1, hmid, hl2⟩ := hwf
    refine ⟨hl1, ?_, hl2⟩
    simp only [wfEntry] at hmid ⊢
    simp only [hck] at hmid ⊢
    exact ⟨hmid.1, hlen2, IH hmid.2.2⟩

/-- Inserting one unknown entry (at any depth) does not change the
entry-level decode. -/
lemma Ins_dEq {k : Kind} {l l2 : List Entry} (h : Ins k l l2) : dEq k l l2 := by
  induction h with
  | here k l1 l2 u hu =>
    simp only [unknownFor] at hu
    cases k with
    | fileset =>
      simp only [dEq]
      intro acc
      rw [dFileSet_append, dFileSet_append, dFileSet_unknown u l2 _ hu.2]
    | file =>
      simp only [dEq]
      intro acc
      rw [dFile_append, dFile_append, dFile_unknown u l2 _ hu.2]
    | message =>
      simp only [dEq]
      intro acc
      rw [dMessage_append, dMessage_append, dMessage_unknown u l2 _ hu.2]
    | field =>
      simp only [dEq]
      intro acc
      rw [dField_append, dField_append, dField_unknown u l2 _ hu.2]
  | deeper k k2 t l1 l2 cs cs2 hck hlen2 hins IH =>
    cases k with
    | fileset =>
      simp only [childKind] at hck
      by_cases ht : t = 1
      · rw [if_pos ht] at hck
        injection hck with hk
        subst hk
        subst ht
        simp only [dEq] at IH ⊢
        intro acc
        rw [dFileSet_append, dFileSet_append]
        rw [show dFileSet (Entry.msgE 1 cs2 :: l2) (dFileSet l1 acc)
            = dFileSet l2 (dFileSet l1 acc ++ [dFile cs2 {}]) from by
          simp [dFileSet, entryTag, entrySub]]
        rw [show dFileSet (Entry.msgE 1 cs :: l2) (dFileSet l1 acc)
            = dFileSet l2 (dFileSet l1 acc ++ [dFile cs {}]) from by
          simp [dFileSet, entryTag, entrySub]]
        rw [IH]
      · rw [if_neg ht] at hck
        cases hck
    | file =>
      simp only [childKind] at hck
      by_cases ht : t = 4
      · rw [if_pos ht] at hck
        injection hck with hk
        subst hk
        subst ht
        simp only [dEq] at IH ⊢
        intro acc
        rw [dFile_append, dFile_append]
        rw [show dFile (Entry.msgE 4 cs2 :: l2) (dFile l1 acc)
            = dFile l2 { dFile l1 acc with
                message := (dFile l1 acc).message ++ [dMessage cs2 (.mk [] [] [])] } from by
          simp [dFile, entryTag, entrySub]]
        rw [show dFile (Entry.msgE 4 cs :: l2) (dFile l1 acc)
            = dFile l2 { dFile l1 acc with
                message := (dFile l1 acc).message ++ [dMessage cs (.mk [] [] [])] } from by
          simp [dFile, entryTag, entrySub]]
        rw [IH]
      · rw [if_neg ht] at hck
        cases hck
    | message =>
      simp only [childKind] at hck
      by_cases ht2 : t = 2
      · rw [if_pos ht2] at hck
        injection hck with hk
        subst hk
        subst ht2
        simp only [dEq] at IH ⊢
        intro acc
        rw [dMessage_append, dMessage_append]
        rw [show dMessage (Entry.msgE 2 cs2 :: l2) (dMessage l1 acc)
            = dMessage l2 ((dMessage l1 acc).addField (dField cs2 {})) from by
          rw [dMessage_cons]
          simp [entryTag, entrySub]]
        rw [show dMessage (Entry.msgE 2 cs :: l2) (dMessage l1 acc)
            = dMessage l2 ((dMessage l1 acc).addField (dField cs {})) from by
          rw [dMessage_cons]
          simp [entryTag, entrySub]]
        rw [IH]
      · rw [if_neg ht2] at hck
        by_cases ht4 : t = 4
        · rw [if_pos ht4] at hck
          injection hck with hk
          subst hk
          subst ht4
          simp only [dEq] at IH ⊢
          intro acc
          rw [dMessage_append, dMessage_append]
          rw [show dMessage (Entry.msgE 4 cs2 :: l2) (dMessage l1 acc)
              = dMessage l2 ((dMessage l1 acc).addNested (dMessage cs2 (.mk [] [] []))) from by
            rw [dMessage_cons]
            simp [entryTag, entrySub]]
          rw [show dMessage (Entry.msgE 4 cs :: l2) (dMessage l1 acc)
              = dMessage l2 ((dMessage l1 acc).addNested (dMessage cs (.mk [] [] []))) from by
            rw [dMessage_cons]
            simp [entryTag, entrySub]]
          rw [IH]
        · rw [if_neg ht4] at hck
          cases hck
    | field =>
      simp only [childKind] at hck
      cases hck

/-! ### Divergence on `loopBuf` -/

lemma loopBuf_diverge : ∀ (fuel : Nat) (i : Nat), i ≤ 11 → ∀ (files : List File),
    parseDescLoop fuel loopBuf (i : Int) files = .diverge := by
  intro fuel
  induction fuel using Nat.strong_induction_on with
  | _ fuel IH =>
    intro i hi files
    cases fuel with
    | zero => rfl
    | succ f =>
      have hf : f < f + 1 := by omega
      interval_cases i
      · exact (show parseDescLoop (f + 1) loopBuf ((0 : Nat) : Int) files
            = parseDescLoop f loopBuf ((1 : Nat) : Int) files from rfl).trans
          (IH f hf 1 (by omega) files)
      · exact (show parseDescLoop (f + 1) loopBuf ((1 : Nat) : Int) files
            = parseDescLoop f loopBuf ((2 : Nat) : Int) files from rfl).trans
          (IH f hf 2 (by omega) files)
      · exact (show parseDescLoop (f + 1) loopBuf ((2 : Nat) : Int) files
            = parseDescLoop f loopBuf ((3 : Nat) : Int) files from rfl).trans
          (IH f hf 3 (by omega) files)
      · exact (show parseDescLoop (f + 1) loopBuf ((3 : Nat) : Int) files
            = parseDescLoop f loopBuf ((4 : Nat) : Int) files from rfl).trans
          (IH f hf 4 (by omega) files)
      · exact (show parseDescLoop (f + 1) loopBuf ((4 : Nat) : Int) files
            = parseDescLoop f loopBuf ((5 : Nat) : Int) files from rfl).trans
          (IH f hf 5 (by omega) files)
      · exact (show parseDescLoop (f + 1) loopBuf ((5 : Nat) : Int) files
            = parseDescLoop f loopBuf ((6 : Nat) : Int) files from rfl).trans
          (IH f hf 6 (by omega) files)
      · exact (show parseDescLoop (f + 1) loopBuf ((6 : Nat) : Int) files
            = parseDescLoop f loopBuf ((7 : Nat) : Int) files from rfl).trans
          (IH f hf 7 (by omega) files)
      · exact (show parseDescLoop (f + 1) loopBuf ((7 : Nat) : Int) files
            = parseDescLoop f loopBuf ((8 : Nat) : Int) files from rfl).trans
          (IH f hf 8 (by omega) files)
      · exact (show parseDescLoop (f + 1) loopBuf ((8 : Nat) : Int) files
            = parseDescLoop f loopBuf ((9 : Nat) : Int) files from rfl).trans
          (IH f hf 9 (by omega) files)
      · exact (show parseDescLoop (f + 1) loopBuf ((9 : Nat) : Int) files
            = parseDescLoop f loopBuf ((10 : Nat) : Int) files from rfl).trans
          (IH f hf 10 (by omega) files)
      · exact (show parseDescLoop (f + 1) loopBuf ((10 : Nat) : Int) files
            = parseDescLoop f loopBuf ((11 : Nat) : Int) files from rfl).trans
          (IH f hf 11 (by omega) files)
      · exact (show parseDescLoop (f + 1) loopBuf ((11 : Nat) : Int) files
            = parseDescLoop f loopBuf ((0 : Nat) : Int) files from rfl).trans
          (IH f hf 0 (by omega) files)

/-! ### Claims -/

/-- C9: on a zero-length input slice every parse routine succeeds with no
error: `parseDescriptor []` yields an empty `File` sequence, and
`parseFile`/`parseMessage`/`parseField` on an empty payload return a
freshly constructed entity with every attribute at its zero value. -/
theorem C9_empty_input_ok :
    parseDescriptor [] = .ok []
    ∧ parseFile [] = .ok {}
    ∧ parseMessage [] = .ok (.mk [] [] [])
    ∧ parseField [] = .ok {} :=
  ⟨rfl, rfl, rfl, rfl⟩

/-- C7 (Scenario A): the buffer holding a single tag-1 length-delimited
`File` entry wrapping a `Message` named `"Point"` (bytes 80 111 105 110
116) with two `Field`s named `"x"` (byte 120, tag-number 1) and `"y"`
(byte 121, tag-number 2) decodes to exactly one `File` with exactly that
one `Message` and its two `Field`s in order. -/
theorem C7_scenarioA :
    parseDescriptor [10, 23, 34, 21, 10, 5, 80, 111, 105, 110, 116,
        18, 5, 10, 1, 120, 24, 1, 18, 5, 10, 1, 121, 24, 2]
      = .ok [{ message := [.mk [80, 111, 105, 110, 116]
                 [{ name := [120], tag := 1 }, { name := [121], tag := 2 }] []] }] :=
  rfl

/-- C4: contrary to the claim, a decoded wire header with tag number 0 is
not an error signal: on the buffer `[0x00]` the header varint decodes
fine, `readNext` returns bytes-consumed `1` (not 0, despite carrying the
wire type in the scalar slot), and `parseDescriptor` skips the byte as an
ordinary unrecognized field and succeeds — the walker dispatches it
through the ordinary skip path rather than treating it as
end-of-data/invalid. -/
theorem C4_tag_zero_not_an_error_signal :
    readNext [0] = some ⟨0, none, 0, 1⟩
    ∧ (1 : Int) ≠ 0
    ∧ parseDescriptor [0] = .ok [] :=
  ⟨rfl, by norm_num, rfl⟩

/-- C3: contrary to the claim, a fixed-width value with too few remaining
bytes or a length-delimited value whose declared length exceeds the
remaining bytes makes the slice expression in `readNext` fault (a Go
runtime panic, `none`/`Res.panic` in this model) instead of returning an
ordinary buffer-too-short result: `[13]` is a tag-1 wire-type-5 header
with 0 of the 4 required bytes, and the nested payloads below reproduce
both failure shapes through `parseDescriptor`. -/
theorem C3_short_reads_panic :
    readNext [13] = none
    ∧ parseDescriptor [10, 1, 13] = .panic
    ∧ parseDescriptor [10, 2, 10, 50] = .panic :=
  ⟨rfl, rfl, rfl⟩

/-- C5: contrary to the claim, a varint value cut off by the end of the
buffer is silently decoded as 0 rather than reported as truncated input:
`[24, 172, 2]` is a well-formed `Field` payload whose tag-number entry
carries 300, its strict prefix `[24]` (the header alone) parses
successfully with `tag = 0`, a successful parse whose attribute differs
from the encoded value. -/
theorem C5_truncated_varint_silently_decoded :
    parseField (List.take 1 [24, 172, 2]) = .ok { tag := 0 }
    ∧ parseField [24, 172, 2] = .ok { tag := 300 }
    ∧ (0 : Nat) ≠ 300 :=
  ⟨rfl, rfl, by norm_num⟩

/-- C1 (counterexample): the failure offset is not the absolute position
of the first malformed byte. In `[10, 1, 128]` the `File` entry's payload
begins at absolute offset 2 and its single byte `0x80` is malformed, so
the claimed reported offset is 2 + 0 = 2; `parseDescriptor` actually
reports 0, because `parseFile`'s local offset 0 is translated by the
offset of the entry's header (0), not of its payload (2). -/
theorem C1_counterexample_offset_not_absolute :
    readNext [10, 1, 128] = some ⟨0, some [128], 1, 3⟩
    ∧ parseFile [128] = .fail {} 0
    ∧ parseDescriptor [10, 1, 128] = .fail [] 0
    ∧ (0 : Int) ≠ 2 + 0 :=
  ⟨rfl, rfl, rfl, by norm_num⟩

/-- C2: contrary to the claim, the scan can loop forever and the cursor
can move backwards. On `loopBuf` the reader reports `next = -11` at
cursor 11 (a negative consumed count, i.e. a backwards move that the
walkers do not reject since they only test `n == 0`), and the descriptor
walker revisits cursor 0 endlessly: for every fuel value the fuelled loop
exhausts its fuel, so no finite number of steps reaches a clean
end-of-slice or a failure return. -/
theorem C2_scan_loops_forever :
    readNext (List.replicate 11 128) = some ⟨0, none, 0, -11⟩
    ∧ (∀ (fuel : Nat) (files : List File),
        parseDescLoop fuel loopBuf 0 files = .diverge)
    ∧ parseDescriptor loopBuf = .diverge := by
  refine ⟨rfl, ?_, ?_⟩
  · intro fuel files
    exact loopBuf_diverge fuel 0 (by omega) files
  · exact loopBuf_diverge (bigFuel loopBuf) 0 (by omega) []

/-- C1 (amended): each recursive caller translates a child's
locally-reported failure offset by adding the offset at which the child's
ENTRY (its header byte) began in the caller's buffer — not the offset at
which the child's payload began — so the reported offset understates the
absolute position of the malformed byte by the header and length-prefix
bytes of every enclosing entry. The four translation sites
(FileSet→File, File→Message, Message→Field, Message→Message) all return
`i + e` where `i` is the entry's start and `e` the child's local
offset. -/
theorem C1_amended_entry_start_translation :
    (∀ (fuel : Nat) (msg : Bytes) (i : Int) (files : List File) (d : Nat) (b : Option Bytes)
        (nx : Int) (fp : File) (e : Int),
      0 ≤ i → i < (msg.length : Int) →
      readNext (msg.drop i.toNat) = some ⟨d, b, 1, nx⟩ → nx ≠ 0 →
      parseFileLoop fuel (b.getD []) 0 {} = .fail fp e →
      parseDescLoop (fuel + 1) msg i files = .fail files (i + e))
    ∧ (∀ (fuel : Nat) (msg : Bytes) (i : Int) (f : File) (d : Nat) (b : Option Bytes)
        (nx : Int) (mp : Message) (e : Int),
      0 ≤ i → i < (msg.length : Int) →
      readNext (msg.drop i.toNat) = some ⟨d, b, 4, nx⟩ → nx ≠ 0 →
      parseMessageLoop fuel (b.getD []) 0 (.mk [] [] []) = .fail mp e →
      parseFileLoop (fuel + 1) msg i f = .fail f (i + e))
    ∧ (∀ (fuel : Nat) (msg : Bytes) (i : Int) (m : Message) (d : Nat) (b : Option Bytes)
        (nx : Int) (fp : Field) (e : Int),
      0 ≤ i → i < (msg.length : Int) →
      readNext (msg.drop i.toNat) = some ⟨d, b, 2, nx⟩ → nx ≠ 0 →
      parseFieldLoop fuel (b.getD []) 0 {} = .fail fp e →
      parseMessageLoop (fuel + 1) msg i m = .fail m (i + e))
    ∧ (∀ (fuel : Nat) (msg : Bytes) (i : Int) (m : Message) (d : Nat) (b : Option Bytes)
        (nx : Int) (mp : Message) (e : Int),
      0 ≤ i → i < (msg.length : Int) →
      readNext (msg.drop i.toNat) = some ⟨d, b, 4, nx⟩ → nx ≠ 0 →
      parseMessageLoop fuel (b.getD []) 0 (.mk [] [] []) = .fail mp e →
      parseMessageLoop (fuel + 1) msg i m = .fail m (i + e)) := by
  refine ⟨?_, ?_, ?_, ?_⟩
  · intro fuel msg i files d b nx fp e h0 hlt hr hn hfail
    rw [parseDescLoop_succ fuel msg i files d b 1 nx h0 hlt hr hn, if_pos rfl, hfail]
  · intro fuel msg i f d b nx mp e h0 hlt hr hn hfail
    rw [parseFileLoop_succ fuel msg i f d b 4 nx h0 hlt hr hn,
      if_neg (show ¬ (4 : Nat) = 1 by norm_num), if_neg (show ¬ (4 : Nat) = 2 by norm_num),
      if_pos rfl, hfail]
  · intro fuel msg i m d b nx fp e h0 hlt hr hn hfail
    rw [parseMessageLoop_succ fuel msg i m d b 2 nx h0 hlt hr hn,
      if_neg (show ¬ (2 : Nat) = 1 by norm_num), if_pos rfl, hfail]
  · intro fuel msg i m d b nx mp e h0 hlt hr hn hfail
    rw [parseMessageLoop_succ fuel msg i m d b 4 nx h0 hlt hr hn,
      if_neg (show ¬ (4 : Nat) = 1 by norm_num), if_neg (show ¬ (4 : Nat) = 2 by norm_num),
      if_pos rfl, hfail]

/-- C1 (witness): the four translation sites exercised on concrete
buffers: in each, the child entry starts at offset 0, its payload `[0x80]`
fails locally at 0, and the caller reports `0 + 0 = 0`. -/
theorem C1_amended_entry_start_translation_witness :
    parseDescLoop 10 [10, 1, 128] 0 [] = .fail [] 0
    ∧ parseFileLoop 10 [34, 1, 128] 0 {} = .fail {} 0
    ∧ parseMessageLoop 10 [18, 1, 128] 0 (.mk [] [] []) = .fail (.mk [] [] []) 0
    ∧ parseMessageLoop 10 [34, 1, 128] 0 (.mk [] [] []) = .fail (.mk [] [] []) 0 :=
  ⟨C1_amended_entry_start_translation.1 9 [10, 1, 128] 0 [] 0 (some [128]) 3 {} 0
      (by norm_num) (by norm_num) rfl (by norm_num) rfl,
    C1_amended_entry_start_translation.2.1 9 [34, 1, 128] 0 {} 0 (some [128]) 3
      (.mk [] [] []) 0 (by norm_num) (by norm_num) rfl (by norm_num) rfl,
    C1_amended_entry_start_translation.2.2.1 9 [18, 1, 128] 0 (.mk [] [] []) 0 (some [128]) 3
      {} 0 (by norm_num) (by norm_num) rfl (by norm_num) rfl,
    C1_amended_entry_start_translation.2.2.2 9 [34, 1, 128] 0 (.mk [] [] []) 0 (some [128]) 3
      (.mk [] [] []) 0 (by norm_num) (by norm_num) rfl (by norm_num) rfl⟩

/-- C8: partial results are preserved only at the outermost FileSet
level, and a failing nested entity is never included in its parent:
when the reader fails, `parseDescriptor`'s loop returns exactly the
accumulated files with offset `i`; when a nested `File` fails, the
returned list is exactly the accumulator (the failing file is dropped)
with the translated offset; and a `Message` or `Field` whose parse fails
is never appended to its parent — the parent returns its current
accumulator unchanged, as a failure. -/
theorem C8_failing_child_never_included :
    (∀ (fuel : Nat) (msg : Bytes) (i : Int) (files : List File) (d : Nat) (b : Option Bytes)
        (t : Nat),
      0 ≤ i → i < (msg.length : Int) →
      readNext (msg.drop i.toNat) = some ⟨d, b, t, 0⟩ →
      parseDescLoop (fuel + 1) msg i files = .fail files i)
    ∧ (∀ (fuel : Nat) (msg : Bytes) (i : Int) (files : List File) (d : Nat) (b : Option Bytes)
        (nx : Int) (fp : File) (e : Int),
      0 ≤ i → i < (msg.length : Int) →
      readNext (msg.drop i.toNat) = some ⟨d, b, 1, nx⟩ → nx ≠ 0 →
      parseFileLoop fuel (b.getD []) 0 {} = .fail fp e →
      parseDescLoop (fuel + 1) msg i files = .fail files (i + e))
    ∧ (∀ (fuel : Nat) (msg : Bytes) (i : Int) (f : File) (d : Nat) (b : Option Bytes)
        (nx : Int) (mp : Message) (e : Int),
      0 ≤ i → i < (msg.length : Int) →
      readNext (msg.drop i.toNat) = some ⟨d, b, 4, nx⟩ → nx ≠ 0 →
      parseMessageLoop fuel (b.getD []) 0 (.mk [] [] []) = .fail mp e →
      parseFileLoop (fuel + 1) msg i f = .fail f (i + e))
    ∧ (∀ (fuel : Nat) (msg : Bytes) (i : Int) (m : Message) (d : Nat) (b : Option Bytes)
        (nx : Int) (fp : Field) (e : Int),
      0 ≤ i → i < (msg.length : Int) →
      readNext (msg.drop i.toNat) = some ⟨d, b, 2, nx⟩ → nx ≠ 0 →
      parseFieldLoop fuel (b.getD []) 0 {} = .fail fp e →
      parseMessageLoop (fuel + 1) msg i m = .fail m (i + e))
    ∧ (∀ (fuel : Nat) (msg : Bytes) (i : Int) (m : Message) (d : Nat) (b : Option Bytes)
        (nx : Int) (mp : Message) (e : Int),
      0 ≤ i → i < (msg.length : Int) →
      readNext (msg.drop i.toNat) = some ⟨d, b, 4, nx⟩ → nx ≠ 0 →
      parseMessageLoop fuel (b.getD []) 0 (.mk [] [] []) = .fail mp e →
      parseMessageLoop (fuel + 1) msg i m = .fail m (i + e)) := by
  refine ⟨?_, ?_, ?_, ?_, ?_⟩
  · intro fuel msg i files d b t h0 hlt hr
    conv_lhs => rw [parseDescLoop]
    simp only [if_pos hlt, if_neg (show ¬ i < 0 by omega), hr, if_true]
  · intro fuel msg i files d b nx fp e h0 hlt hr hn hfail
    rw [parseDescLoop_succ fuel msg i files d b 1 nx h0 hlt hr hn, if_pos rfl, hfail]
  · intro fuel msg i f d b nx mp e h0 hlt hr hn hfail
    rw [parseFileLoop_succ fuel msg i f d b 4 nx h0 hlt hr hn,
      if_neg (show ¬ (4 : Nat) = 1 by norm_num), if_neg (show ¬ (4 : Nat) = 2 by norm_num),
      if_pos rfl, hfail]
  · intro fuel msg i m d b nx fp e h0 hlt hr hn hfail
    rw [parseMessageLoop_succ fuel msg i m d b 2 nx h0 hlt hr hn,
      if_neg (show ¬ (2 : Nat) = 1 by norm_num), if_pos rfl, hfail]
  · intro fuel msg i m d b nx mp e h0 hlt hr hn hfail
    rw [parseMessageLoop_succ fuel msg i m d b 4 nx h0 hlt hr hn,
      if_neg (show ¬ (4 : Nat) = 1 by norm_num), if_neg (show ¬ (4 : Nat) = 2 by norm_num),
      if_pos rfl, hfail]

/-- C8 (witness): on `[128]` the reader fails at once and the loop keeps
the (non-empty) accumulator; on `[10, 1, 128]` with one file already
accumulated, the failing nested `File` is not appended; the nested sites
likewise return their accumulator unchanged. -/
theorem C8_failing_child_never_included_witness :
    parseDescLoop 5 [128] 0 [{ name := [7] }] = .fail [{ name := [7] }] 0
    ∧ parseDescLoop 10 [10, 1, 128] 0 [{ name := [7] }] = .fail [{ name := [7] }] 0
    ∧ parseFileLoop 10 [34, 1, 128] 0 { name := [7] } = .fail { name := [7] } 0
    ∧ parseMessageLoop 10 [18, 1, 128] 0 (.mk [7] [] []) = .fail (.mk [7] [] []) 0
    ∧ parseMessageLoop 10 [34, 1, 128] 0 (.mk [7] [] []) = .fail (.mk [7] [] []) 0 :=
  ⟨C8_failing_child_never_included.1 4 [128] 0 [{ name := [7] }] 0 none 0
      (by norm_num) (by norm_num) rfl,
    C8_failing_child_never_included.2.1 9 [10, 1, 128] 0 [{ name := [7] }] 0 (some [128]) 3
      {} 0 (by norm_num) (by norm_num) rfl (by norm_num) rfl,
    C8_failing_child_never_included.2.2.1 9 [34, 1, 128] 0 { name := [7] } 0 (some [128]) 3
      (.mk [] [] []) 0 (by norm_num) (by norm_num) rfl (by norm_num) rfl,
    C8_failing_child_never_included.2.2.2.1 9 [18, 1, 128] 0 (.mk [7] [] []) 0 (some [128])
      3 {} 0 (by norm_num) (by norm_num) rfl (by norm_num) rfl,
    C8_failing_child_never_included.2.2.2.2 9 [34, 1, 128] 0 (.mk [7] [] []) 0 (some [128])
      3 (.mk [] [] []) 0 (by norm_num) (by norm_num) rfl (by norm_num) rfl⟩

lemma wf_of_InsStar {k : Kind} {l l2 : List Entry}
    (h : Relation.ReflTransGen (Ins k) l l2) (hwf : wfEntries k l) : wfEntries k l2 := by
  induction h with
  | refl => exact hwf
  | tail hab hbc IH => exact wf_of_Ins hbc IH

/-- C6: inserting any number of additional well-formed entries with
unrecognized tag numbers at arbitrary entry boundaries of any entity (at
any depth — the reflexive-transitive closure of the one-insertion
relation `Ins`) leaves the decoded result unchanged and never produces a
failure: both buffers decode successfully to the same `File` sequence. -/
theorem C6_unknown_insertion (l l2 : List Entry) (hwf : wfEntries .fileset l)
    (hins : Relation.ReflTransGen (Ins .fileset) l l2) :
    parseDescriptor (encodeEntries l2) = .ok (dFileSet l [])
    ∧ parseDescriptor (encodeEntries l) = .ok (dFileSet l []) := by
  induction hins with
  | refl => exact ⟨parseDescriptor_encode l hwf, parseDescriptor_encode l hwf⟩
  | tail hab hbc IH =>
    have hwfb := wf_of_InsStar hab hwf
    have hb := parseDescriptor_encode _ hwfb
    have hc := parseDescriptor_encode _ (wf_of_Ins hbc hwfb)
    have hd := Ins_dEq hbc
    simp only [dEq] at hd
    refine ⟨?_, IH.2⟩
    rw [hc, hd []]
    have hbe := IH.1.symm.trans hb
    injection hbe with h
    rw [← h]

/-- C6 (witness): inserting the unknown varint entry `(tag 7, value 7)`
into the payload of a `File` entry does not change the decode. -/
theorem C6_unknown_insertion_witness :
    parseDescriptor (encodeEntries [Entry.msgE 1 [Entry.varintE 7 7]])
      = parseDescriptor (encodeEntries [Entry.msgE 1 []])
    ∧ parseDescriptor (encodeEntries [Entry.msgE 1 []])
      = .ok (dFileSet [Entry.msgE 1 []] []) := by
  have hwf : wfEntries Kind.fileset [Entry.msgE 1 []] := by
    refine ⟨⟨⟨by norm_num, by norm_num⟩, by norm_num [encodeEntries], ?_⟩, trivial⟩
    show wfEntries Kind.file []
    trivial
  have hu : unknownFor Kind.file (Entry.varintE 7 7) := by
    refine ⟨⟨⟨by norm_num, by norm_num⟩, by norm_num, by rfl⟩, by rfl⟩
  have hhere : Ins Kind.file [] [Entry.varintE 7 7] := by
    have h := Ins.here Kind.file [] [] (Entry.varintE 7 7) hu
    simpa using h
  have hins : Ins Kind.fileset [Entry.msgE 1 []] [Entry.msgE 1 [Entry.varintE 7 7]] := by
    have h := Ins.deeper Kind.fileset Kind.file 1 [] [] [] [Entry.varintE 7 7] (by rfl)
      (by decide) hhere
    simpa using h
  have h := C6_unknown_insertion _ _ hwf (Relation.ReflTransGen.single hins)
  exact ⟨h.1.trans h.2.symm, h.2⟩

lemma dFile_name_stable (l : List Entry) (f : File) (h : ∀ u ∈ l, entryTag u ≠ 1) :
    (dFile l f).name = f.name := by
  induction l generalizing f with
  | nil => rfl
  | cons e l IH =>
    have he : entryTag e ≠ 1 := h e (by simp)
    have hl : ∀ u ∈ l, entryTag u ≠ 1 := fun u hu => h u (by simp [hu])
    simp only [dFile, if_neg he]
    rw [IH _ hl]
    by_cases h2 : entryTag e = 2
    · simp [if_pos h2]
    · by_cases h4 : entryTag e = 4
      · simp [if_neg h2, if_pos h4]
      · by_cases h12 : entryTag e = 12
        · simp [if_neg h2, if_neg h4, if_pos h12]
        · simp [if_neg h2, if_neg h4, if_neg h12]

lemma dFile_name_entry (s : Bytes) (l : List Entry) (f : File) :
    dFile (.strE 1 s :: l) f = dFile l { f with name := s } := by
  simp [dFile, entryTag, entryB]

lemma dField_tag_stable (l : List Entry) (f : Field) (h : ∀ u ∈ l, entryTag u ≠ 3) :
    (dField l f).tag = f.tag := by
  induction l generalizing f with
  | nil => rfl
  | cons e l IH =>
    have he : entryTag e ≠ 3 := h e (by simp)
    have hl : ∀ u ∈ l, entryTag u ≠ 3 := fun u hu => h u (by simp [hu])
    simp only [dField]
    rw [IH _ hl]
    simp only [fieldStep, if_neg he]
    by_cases h1 : entryTag e = 1
    · simp [if_pos h1]
    · by_cases h4 : entryTag e = 4
      · simp [if_neg h1, if_pos h4]
      · by_cases h5 : entryTag e = 5
        · simp [if_neg h1, if_neg h4, if_pos h5]
        · by_cases h9 : entryTag e = 9
          · simp [if_neg h1, if_neg h4, if_neg h5, if_pos h9]
          · simp [if_neg h1, if_neg h4, if_neg h5, if_neg h9]

lemma dField_tag_entry (v : Nat) (l : List Entry) (f : Field) :
    dField (.varintE 3 v :: l) f = dField l { f with tag := v % 2 ^ 32 } := by
  simp [dField, fieldStep, entryTag, entryD, entryB]

lemma dFile_package_stable (l : List Entry) (f : File) (h : ∀ u ∈ l, entryTag u ≠ 2) :
    (dFile l f).package = f.package := by
  induction l generalizing f with
  | nil => rfl
  | cons e l IH =>
    have he : entryTag e ≠ 2 := h e (by simp)
    have hl : ∀ u ∈ l, entryTag u ≠ 2 := fun u hu => h u (by simp [hu])
    simp only [dFile]
    rw [IH _ hl]
    by_cases h1 : entryTag e = 1
    · simp [if_pos h1]
    · by_cases h4 : entryTag e = 4
      · simp [if_neg h1, if_neg he, if_pos h4]
      · by_cases h12 : entryTag e = 12
        · simp [if_neg h1, if_neg he, if_neg h4, if_pos h12]
        · simp [if_neg h1, if_neg he, if_neg h4, if_neg h12]

lemma dFile_package_entry (s : Bytes) (l : List Entry) (f : File) :
    dFile (.strE 2 s :: l) f = dFile l { f with package := s } := by
  simp [dFile, entryTag, entryB]

lemma dFile_format_stable (l : List Entry) (f : File) (h : ∀ u ∈ l, entryTag u ≠ 12) :
    (dFile l f).format = f.format := by
  induction l generalizing f with
  | nil => rfl
  | cons e l IH =>
    have he : entryTag e ≠ 12 := h e (by simp)
    have hl : ∀ u ∈ l, entryTag u ≠ 12 := fun u hu => h u (by simp [hu])
    simp only [dFile]
    rw [IH _ hl]
    by_cases h1 : entryTag e = 1
    · simp [if_pos h1]
    · by_cases h2 : entryTag e = 2
      · simp [if_neg h1, if_pos h2]
      · by_cases h4 : entryTag e = 4
        · simp [if_neg h1, if_neg h2, if_pos h4]
        · simp [if_neg h1, if_neg h2, if_neg h4, if_neg he]

lemma dFile_format_entry (s : Bytes) (l : List Entry) (f : File) :
    dFile (.strE 12 s :: l) f = dFile l { f with format := s } := by
  simp [dFile, entryTag, entryB]

lemma Message.name_setName (m : Message) (s : Bytes) : (m.setName s).name = s := by
  cases m
  rfl

lemma Message.name_addField (m : Message) (f : Field) : (m.addField f).name = m.name := by
  cases m
  rfl

lemma Message.name_addNested (m nm : Message) : (m.addNested nm).name = m.name := by
  cases m
  rfl

lemma dMessage_name_stable (l : List Entry) (m : Message) (h : ∀ u ∈ l, entryTag u ≠ 1) :
    (dMessage l m).name = m.name := by
  induction l generalizing m with
  | nil => rw [dMessage_nil]
  | cons e l IH =>
    have he : entryTag e ≠ 1 := h e (by simp)
    have hl : ∀ u ∈ l, entryTag u ≠ 1 := fun u hu => h u (by simp [hu])
    rw [dMessage_cons, if_neg he]
    rw [IH _ hl]
    by_cases h2 : entryTag e = 2
    · rw [if_pos h2, Message.name_addField]
    · by_cases h4 : entryTag e = 4
      · rw [if_neg h2, if_pos h4, Message.name_addNested]
      · rw [if_neg h2, if_neg h4]

lemma dMessage_name_entry (s : Bytes) (l : List Entry) (m : Message) :
    dMessage (.strE 1 s :: l) m = dMessage l (m.setName s) := by
  rw [dMessage_cons]
  simp [entryTag, entryB]

lemma dField_name_stable (l : List Entry) (f : Field) (h : ∀ u ∈ l, entryTag u ≠ 1) :
    (dField l f).name = f.name := by
  induction l generalizing f with
  | nil => rfl
  | cons e l IH =>
    have he : entryTag e ≠ 1 := h e (by simp)
    have hl : ∀ u ∈ l, entryTag u ≠ 1 := fun u hu => h u (by simp [hu])
    simp only [dField]
    rw [IH _ hl]
    simp only [fieldStep, if_neg he]
    by_cases h3 : entryTag e = 3
    · simp [if_pos h3]
    · by_cases h4 : entryTag e = 4
      · simp [if_neg h3, if_pos h4]
      · by_cases h5 : entryTag e = 5
        · simp [if_neg h3, if_neg h4, if_pos h5]
        · by_cases h9 : entryTag e = 9
          · simp [if_neg h3, if_neg h4, if_neg h5, if_pos h9]
          · simp [if_neg h3, if_neg h4, if_neg h5, if_neg h9]

lemma dField_name_entry (s : Bytes) (l : List Entry) (f : Field) :
    dField (.strE 1 s :: l) f = dField l { f with name := s } := by
  simp [dField, fieldStep, entryTag, entryB]

lemma dField_label_stable (l : List Entry) (f : Field) (h : ∀ u ∈ l, entryTag u ≠ 4) :
    (dField l f).label = f.label := by
  induction l generalizing f with
  | nil => rfl
  | cons e l IH =>
    have he : entryTag e ≠ 4 := h e (by simp)
    have hl : ∀ u ∈ l, entryTag u ≠ 4 := fun u hu => h u (by simp [hu])
    simp only [dField]
    rw [IH _ hl]
    simp only [fieldStep]
    by_cases h1 : entryTag e = 1
    · simp [if_pos h1]
    · by_cases h3 : entryTag e = 3
      · simp [if_neg h1, if_pos h3]
      · by_cases h5 : entryTag e = 5
        · simp [if_neg h1, if_neg h3, if_neg he, if_pos h5]
        · by_cases h9 : entryTag e = 9
          · simp [if_neg h1, if_neg h3, if_neg he, if_neg h5, if_pos h9]
          · simp [if_neg h1, if_neg h3, if_neg he, if_neg h5, if_neg h9]

lemma dField_label_entry (v : Nat) (l : List Entry) (f : Field) :
    dField (.varintE 4 v :: l) f = dField l { f with label := v % 256 } := by
  simp [dField, fieldStep, entryTag, entryD, entryB]

lemma dField_ftype_stable (l : List Entry) (f : Field) (h : ∀ u ∈ l, entryTag u ≠ 5) :
    (dField l f).ftype = f.ftype := by
  induction l generalizing f with
  | nil => rfl
  | cons e l IH =>
    have he : entryTag e ≠ 5 := h e (by simp)
    have hl : ∀ u ∈ l, entryTag u ≠ 5 := fun u hu => h u (by simp [hu])
    simp only [dField]
    rw [IH _ hl]
    simp only [fieldStep]
    by_cases h1 : entryTag e = 1
    · simp [if_pos h1]
    · by_cases h3 : entryTag e = 3
      · simp [if_neg h1, if_pos h3]
      · by_cases h4 : entryTag e = 4
        · simp [if_neg h1, if_neg h3, if_pos h4]
        · by_cases h9 : entryTag e = 9
          · simp [if_neg h1, if_neg h3, if_neg h4, if_neg he, if_pos h9]
          · simp [if_neg h1, if_neg h3, if_neg h4, if_neg he, if_neg h9]

lemma dField_ftype_entry (v : Nat) (l : List Entry) (f : Field) :
    dField (.varintE 5 v :: l) f = dField l { f with ftype := v % 256 } := by
  simp [dField, fieldStep, entryTag, entryD, entryB]

lemma dField_oneOf_stable (l : List Entry) (f : Field) (h : ∀ u ∈ l, entryTag u ≠ 9) :
    (dField l f).oneOfIndex = f.oneOfIndex := by
  induction l generalizing f with
  | nil => rfl
  | cons e l IH =>
    have he : entryTag e ≠ 9 := h e (by simp)
    have hl : ∀ u ∈ l, entryTag u ≠ 9 := fun u hu => h u (by simp [hu])
    simp only [dField]
    rw [IH _ hl]
    simp only [fieldStep]
    by_cases h1 : entryTag e = 1
    · simp [if_pos h1]
    · by_cases h3 : entryTag e = 3
      · simp [if_neg h1, if_pos h3]
      · by_cases h4 : entryTag e = 4
        · simp [if_neg h1, if_neg h3, if_pos h4]
        · by_cases h5 : entryTag e = 5
          · simp [if_neg h1, if_neg h3, if_neg h4, if_pos h5]
          · simp [if_neg h1, if_neg h3, if_neg h4, if_neg h5, if_neg he]

lemma dField_oneOf_entry (v : Nat) (l : List Entry) (f : Field) :
    dField (.varintE 9 v :: l) f = dField l { f with oneOfIndex := toInt32 v } := by
  simp [dField, fieldStep, entryTag, entryD, entryB]

/-- C10: when an entity's slice holds several well-formed entries with
the same recognized singular tag, the decoded attribute is the value of
the last such entry, at every singular-attribute site: File name
(tag 1), package (tag 2) and format (tag 12); Message name (tag 1); and
Field name (tag 1), tag number (tag 3), label (tag 4), type (tag 5) and
one-of index (tag 9). Later occurrences overwrite earlier ones and
nothing is rejected. -/
theorem C10_last_entry_wins :
    (∀ (l1 : List Entry) (s1 : Bytes) (l2 : List Entry) (s2 : Bytes) (l3 : List Entry),
      wfEntries .file (l1 ++ .strE 1 s1 :: l2 ++ .strE 1 s2 :: l3) →
      (∀ u ∈ l3, entryTag u ≠ 1) →
      ∃ f, parseFile (encodeEntries (l1 ++ .strE 1 s1 :: l2 ++ .strE 1 s2 :: l3)) = .ok f
        ∧ f.name = s2)
    ∧ (∀ (l1 : List Entry) (s1 : Bytes) (l2 : List Entry) (s2 : Bytes) (l3 : List Entry),
      wfEntries .file (l1 ++ .strE 2 s1 :: l2 ++ .strE 2 s2 :: l3) →
      (∀ u ∈ l3, entryTag u ≠ 2) →
      ∃ f, parseFile (encodeEntries (l1 ++ .strE 2 s1 :: l2 ++ .strE 2 s2 :: l3)) = .ok f
        ∧ f.package = s2)
    ∧ (∀ (l1 : List Entry) (s1 : Bytes) (l2 : List Entry) (s2 : Bytes) (l3 : List Entry),
      wfEntries .file (l1 ++ .strE 12 s1 :: l2 ++ .strE 12 s2 :: l3) →
      (∀ u ∈ l3, entryTag u ≠ 12) →
      ∃ f, parseFile (encodeEntries (l1 ++ .strE 12 s1 :: l2 ++ .strE 12 s2 :: l3)) = .ok f
        ∧ f.format = s2)
    ∧ (∀ (l1 : List Entry) (s1 : Bytes) (l2 : List Entry) (s2 : Bytes) (l3 : List Entry),
      wfEntries .message (l1 ++ .strE 1 s1 :: l2 ++ .strE 1 s2 :: l3) →
      (∀ u ∈ l3, entryTag u ≠ 1) →
      ∃ m, parseMessage (encodeEntries (l1 ++ .strE 1 s1 :: l2 ++ .strE 1 s2 :: l3)) = .ok m
        ∧ m.name = s2)
    ∧ (∀ (l1 : List Entry) (s1 : Bytes) (l2 : List Entry) (s2 : Bytes) (l3 : List Entry),
      wfEntries .field (l1 ++ .strE 1 s1 :: l2 ++ .strE 1 s2 :: l3) →
      (∀ u ∈ l3, entryTag u ≠ 1) →
      ∃ f, parseField (encodeEntries (l1 ++ .strE 1 s1 :: l2 ++ .strE 1 s2 :: l3)) = .ok f
        ∧ f.name = s2)
    ∧ (∀ (m1 : List Entry) (v1 : Nat) (m2 : List Entry) (v2 : Nat) (m3 : List Entry),
      wfEntries .field (m1 ++ .varintE 3 v1 :: m2 ++ .varintE 3 v2 :: m3) →
      (∀ u ∈ m3, entryTag u ≠ 3) →
      ∃ f, parseField (encodeEntries (m1 ++ .varintE 3 v1 :: m2 ++ .varintE 3 v2 :: m3))
          = .ok f
        ∧ f.tag = v2 % 2 ^ 32)
    ∧ (∀ (m1 : List Entry) (v1 : Nat) (m2 : List Entry) (v2 : Nat) (m3 : List Entry),
      wfEntries .field (m1 ++ .varintE 4 v1 :: m2 ++ .varintE 4 v2 :: m3) →
      (∀ u ∈ m3, entryTag u ≠ 4) →
      ∃ f, parseField (encodeEntries (m1 ++ .varintE 4 v1 :: m2 ++ .varintE 4 v2 :: m3))
          = .ok f
        ∧ f.label = v2 % 256)
    ∧ (∀ (m1 : List Entry) (v1 : Nat) (m2 : List Entry) (v2 : Nat) (m3 : List Entry),
      wfEntries .field (m1 ++ .varintE 5 v1 :: m2 ++ .varintE 5 v2 :: m3) →
      (∀ u ∈ m3, entryTag u ≠ 5) →
      ∃ f, parseField (encodeEntries (m1 ++ .varintE 5 v1 :: m2 ++ .varintE 5 v2 :: m3))
          = .ok f
        ∧ f.ftype = v2 % 256)
    ∧ (∀ (m1 : List Entry) (v1 : Nat) (m2 : List Entry) (v2 : Nat) (m3 : List Entry),
      wfEntries .field (m1 ++ .varintE 9 v1 :: m2 ++ .varintE 9 v2 :: m3) →
      (∀ u ∈ m3, entryTag u ≠ 9) →
      ∃ f, parseField (encodeEntries (m1 ++ .varintE 9 v1 :: m2 ++ .varintE 9 v2 :: m3))
          = .ok f
        ∧ f.oneOfIndex = toInt32 v2) := by
  refine ⟨?_, ?_, ?_, ?_, ?_, ?_, ?_, ?_, ?_⟩
  · intro l1 s1 l2 s2 l3 hwf h3
    refine ⟨_, parseFile_encode _ hwf, ?_⟩
    rw [show l1 ++ Entry.strE 1 s1 :: l2 ++ Entry.strE 1 s2 :: l3
        = (l1 ++ Entry.strE 1 s1 :: l2) ++ (Entry.strE 1 s2 :: l3) by simp]
    rw [dFile_append, dFile_name_entry, dFile_name_stable l3 _ h3]
  · intro l1 s1 l2 s2 l3 hwf h3
    refine ⟨_, parseFile_encode _ hwf, ?_⟩
    rw [show l1 ++ Entry.strE 2 s1 :: l2 ++ Entry.strE 2 s2 :: l3
        = (l1 ++ Entry.strE 2 s1 :: l2) ++ (Entry.strE 2 s2 :: l3) by simp]
    rw [dFile_append, dFile_package_entry, dFile_package_stable l3 _ h3]
  · intro l1 s1 l2 s2 l3 hwf h3
    refine ⟨_, parseFile_encode _ hwf, ?_⟩
    rw [show l1 ++ Entry.strE 12 s1 :: l2 ++ Entry.strE 12 s2 :: l3
        = (l1 ++ Entry.strE 12 s1 :: l2) ++ (Entry.strE 12 s2 :: l3) by simp]
    rw [dFile_append, dFile_format_entry, dFile_format_stable l3 _ h3]
  · intro l1 s1 l2 s2 l3 hwf h3
    refine ⟨_, parseMessage_encode _ hwf, ?_⟩
    rw [show l1 ++ Entry.strE 1 s1 :: l2 ++ Entry.strE 1 s2 :: l3
        = (l1 ++ Entry.strE 1 s1 :: l2) ++ (Entry.strE 1 s2 :: l3) by simp]
    rw [dMessage_append, dMessage_name_entry, dMessage_name_stable l3 _ h3,
      Message.name_setName]
  · intro l1 s1 l2 s2 l3 hwf h3
    refine ⟨_, parseField_encode _ hwf, ?_⟩
    rw [show l1 ++ Entry.strE 1 s1 :: l2 ++ Entry.strE 1 s2 :: l3
        = (l1 ++ Entry.strE 1 s1 :: l2) ++ (Entry.strE 1 s2 :: l3) by simp]
    rw [dField_append, dField_name_entry, dField_name_stable l3 _ h3]
  · intro m1 v1 m2 v2 m3 hwf h3
    refine ⟨_, parseField_encode _ hwf, ?_⟩
    rw [show m1 ++ Entry.varintE 3 v1 :: m2 ++ Entry.varintE 3 v2 :: m3
        = (m1 ++ Entry.varintE 3 v1 :: m2) ++ (Entry.varintE 3 v2 :: m3) by simp]
    rw [dField_append, dField_tag_entry, dField_tag_stable m3 _ h3]
  · intro m1 v1 m2 v2 m3 hwf h3
    refine ⟨_, parseField_encode _ hwf, ?_⟩
    rw [show m1 ++ Entry.varintE 4 v1 :: m2 ++ Entry.varintE 4 v2 :: m3
        = (m1 ++ Entry.varintE 4 v1 :: m2) ++ (Entry.varintE 4 v2 :: m3) by simp]
    rw [dField_append, dField_label_entry, dField_label_stable m3 _ h3]
  · intro m1 v1 m2 v2 m3 hwf h3
    refine ⟨_, parseField_encode _ hwf, ?_⟩
    rw [show m1 ++ Entry.varintE 5 v1 :: m2 ++ Entry.varintE 5 v2 :: m3
        = (m1 ++ Entry.varintE 5 v1 :: m2) ++ (Entry.varintE 5 v2 :: m3) by simp]
    rw [dField_append, dField_ftype_entry, dField_ftype_stable m3 _ h3]
  · intro m1 v1 m2 v2 m3 hwf h3
    refine ⟨_, parseField_encode _ hwf, ?_⟩
    rw [show m1 ++ Entry.varintE 9 v1 :: m2 ++ Entry.varintE 9 v2 :: m3
        = (m1 ++ Entry.varintE 9 v1 :: m2) ++ (Entry.varintE 9 v2 :: m3) by simp]
    rw [dField_append, dField_oneOf_entry, dField_oneOf_stable m3 _ h3]

/-- C10 (witness): every singular-attribute site exercised with two
same-tag entries; the decoded attribute is the second entry's value:
File name/package/format "a" then "b" decode to "b", Message name
likewise, Field name likewise, and Field tag/label/type/one-of carrying
1 then 2 decode to 2. -/
theorem C10_last_entry_wins_witness :
    (∃ f, parseFile (encodeEntries [Entry.strE 1 [97], Entry.strE 1 [98]]) = .ok f
      ∧ f.name = [98])
    ∧ (∃ f, parseFile (encodeEntries [Entry.strE 2 [97], Entry.strE 2 [98]]) = .ok f
      ∧ f.package = [98])
    ∧ (∃ f, parseFile (encodeEntries [Entry.strE 12 [97], Entry.strE 12 [98]]) = .ok f
      ∧ f.format = [98])
    ∧ (∃ m, parseMessage (encodeEntries [Entry.strE 1 [97], Entry.strE 1 [98]]) = .ok m
      ∧ m.name = [98])
    ∧ (∃ f, parseField (encodeEntries [Entry.strE 1 [97], Entry.strE 1 [98]]) = .ok f
      ∧ f.name = [98])
    ∧ (∃ f, parseField (encodeEntries [Entry.varintE 3 1, Entry.varintE 3 2]) = .ok f
      ∧ f.tag = 2 % 2 ^ 32)
    ∧ (∃ f, parseField (encodeEntries [Entry.varintE 4 1, Entry.varintE 4 2]) = .ok f
      ∧ f.label = 2 % 256)
    ∧ (∃ f, parseField (encodeEntries [Entry.varintE 5 1, Entry.varintE 5 2]) = .ok f
      ∧ f.ftype = 2 % 256)
    ∧ (∃ f, parseField (encodeEntries [Entry.varintE 9 1, Entry.varintE 9 2]) = .ok f
      ∧ f.oneOfIndex = toInt32 2) := by
  refine ⟨?_, ?_, ?_, ?_, ?_, ?_, ?_, ?_, ?_⟩
  · have h := C10_last_entry_wins.1 [] [97] [] [98] []
      (by refine ⟨⟨⟨by norm_num, by norm_num⟩, by norm_num, by rfl⟩,
        ⟨⟨by norm_num, by norm_num⟩, by norm_num, by rfl⟩, trivial⟩)
      (by simp)
    simpa using h
  · have h := C10_last_entry_wins.2.1 [] [97] [] [98] []
      (by refine ⟨⟨⟨by norm_num, by norm_num⟩, by norm_num, by rfl⟩,
        ⟨⟨by norm_num, by norm_num⟩, by norm_num, by rfl⟩, trivial⟩)
      (by simp)
    simpa using h
  · have h := C10_last_entry_wins.2.2.1 [] [97] [] [98] []
      (by refine ⟨⟨⟨by norm_num, by norm_num⟩, by norm_num, by rfl⟩,
        ⟨⟨by norm_num, by norm_num⟩, by norm_num, by rfl⟩, trivial⟩)
      (by simp)
    simpa using h
  · have h := C10_last_entry_wins.2.2.2.1 [] [97] [] [98] []
      (by refine ⟨⟨⟨by norm_num, by norm_num⟩, by norm_num, by rfl⟩,
        ⟨⟨by norm_num, by norm_num⟩, by norm_num, by rfl⟩, trivial⟩)
      (by simp)
    simpa using h
  · have h := C10_last_entry_wins.2.2.2.2.1 [] [97] [] [98] []
      (by refine ⟨⟨⟨by norm_num, by norm_num⟩, by norm_num, by rfl⟩,
        ⟨⟨by norm_num, by norm_num⟩, by norm_num, by rfl⟩, trivial⟩)
      (by simp)
    simpa using h
  · have h := C10_last_entry_wins.2.2.2.2.2.1 [] 1 [] 2 []
      (by refine ⟨⟨⟨by norm_num, by norm_num⟩, by norm_num, by rfl⟩,
        ⟨⟨by norm_num, by norm_num⟩, by norm_num, by rfl⟩, trivial⟩)
      (by simp)
    simpa using h
  · have h := C10_last_entry_wins.2.2.2.2.2.2.1 [] 1 [] 2 []
      (by refine ⟨⟨⟨by norm_num, by norm_num⟩, by norm_num, by rfl⟩,
        ⟨⟨by norm_num, by norm_num⟩, by norm_num, by rfl⟩, trivial⟩)
      (by simp)
    simpa using h
  · have h := C10_last_entry_wins.2.2.2.2.2.2.2.1 [] 1 [] 2 []
      (by refine ⟨⟨⟨by norm_num, by norm_num⟩, by norm_num, by rfl⟩,
        ⟨⟨by norm_num, by norm_num⟩, by norm_num, by rfl⟩, trivial⟩)
      (by simp)
    simpa using h
  · have h := C10_last_entry_wins.2.2.2.2.2.2.2.2 [] 1 [] 2 []
      (by refine ⟨⟨⟨by norm_num, by norm_num⟩, by norm_num, by rfl⟩,
        ⟨⟨by norm_num, by norm_num⟩, by norm_num, by rfl⟩, trivial⟩)
      (by simp)
    simpa using h

end Proton
